import Mathlib

/-!
Verification of the TianshanOS font-conversion tools
(`src/tools/bdf2fnt.py` and `src/tools/ttf2fnt.py`) against their
natural-language specification.

The development shallowly embeds the pure core of the two converters:
the shared MSB-first bit packer, the BDF placement engine, the BDF
parser, and the two container encoders.  Python integers are modelled
by `Nat`/`Int`; Python's range-checked `struct.pack` formats are
modelled by `Option`-returning packers; 2-dimensional canvases are
modelled as functions `Int → Int → Bool` updated pointwise, exactly as
the nested loops of the source update the nested lists.
-/

set_option maxHeartbeats 1000000
set_option maxRecDepth 8000

namespace TianshanFnt

/-! ### Bit packer, bdf2fnt.py lines 181-188

`render_glyph_to_fixed_size` packs a flat bit list by preallocating
`(len(bits)+7)//8` zero bytes and OR-ing `0x80 >> (i % 8)` into byte
`i // 8` for every set bit `i`. -/

/-- One iteration of the bdf2fnt packing loop
(`if bit: result[i // 8] |= (0x80 >> (i % 8))`). -/
def packBitsStep (bits : List Bool) (arr : List Nat) (i : Nat) : List Nat :=
  if bits.getD i false then
    arr.set (i / 8) ((arr.getD (i / 8) 0) ||| (0x80 >>> (i % 8)))
  else arr

/-- bdf2fnt.py lines 182-188: `byte_count = (len(bits) + 7) // 8`,
`result = bytearray(byte_count)`, then the per-bit OR loop. -/
def packBits (bits : List Bool) : List Nat :=
  (List.range bits.length).foldl (packBitsStep bits)
    (List.replicate ((bits.length + 7) / 8) 0)

/-! ### Bit packer, ttf2fnt.py lines 120-138

`render_glyph` packs pixels with a streaming accumulator:
`byte |= (1 << (7 - bit_pos))`, flushing every 8 bits and once more at
the end when a partial byte remains. -/

/-- `byte |= (1 << (7 - bit_pos))` when the pixel is set (ttf2fnt.py line 128). -/
def accByte (byte : Nat) (bitPos : Nat) (p : Bool) : Nat :=
  if p then byte ||| (1 <<< (7 - bitPos)) else byte

/-- The `for pixel in pixels` loop of ttf2fnt.py lines 126-137, plus the
trailing flush `if bit_pos > 0: packed.append(byte)`. -/
def packPixelsLoop : List Bool → Nat → Nat → List Nat
  | [], byte, bitPos => if 0 < bitPos then [byte] else []
  | p :: ps, byte, bitPos =>
    let byte' := accByte byte bitPos p
    if bitPos + 1 = 8 then byte' :: packPixelsLoop ps 0 0
    else packPixelsLoop ps byte' (bitPos + 1)

/-- ttf2fnt.py lines 122-138: pack a pixel list starting from
`byte = 0`, `bit_pos = 0`. -/
def packPixels (pixels : List Bool) : List Nat := packPixelsLoop pixels 0 0

/-! ### Reference characterisation of the packed bytes -/

/-- The value a byte accumulates from the first 8 pixels of the ttf loop. -/
def byteOf8 (b0 b1 b2 b3 b4 b5 b6 b7 : Bool) : Nat :=
  accByte (accByte (accByte (accByte (accByte (accByte (accByte
    (accByte 0 0 b0) 1 b1) 2 b2) 3 b3) 4 b4) 5 b5) 6 b6) 7 b7

/-- The ttf packing loop seen 8 pixels at a time. -/
def packChunks : List Bool → List Nat
  | [] => []
  | [b0] => [byteOf8 b0 false false false false false false false]
  | [b0, b1] => [byteOf8 b0 b1 false false false false false false]
  | [b0, b1, b2] => [byteOf8 b0 b1 b2 false false false false false]
  | [b0, b1, b2, b3] => [byteOf8 b0 b1 b2 b3 false false false false]
  | [b0, b1, b2, b3, b4] => [byteOf8 b0 b1 b2 b3 b4 false false false]
  | [b0, b1, b2, b3, b4, b5] => [byteOf8 b0 b1 b2 b3 b4 b5 false false]
  | [b0, b1, b2, b3, b4, b5, b6] => [byteOf8 b0 b1 b2 b3 b4 b5 b6 false]
  | b0 :: b1 :: b2 :: b3 :: b4 :: b5 :: b6 :: b7 :: rest =>
      byteOf8 b0 b1 b2 b3 b4 b5 b6 b7 :: packChunks rest

lemma packPixelsLoop_chunk (b0 b1 b2 b3 b4 b5 b6 b7 : Bool) (rest : List Bool) :
    packPixelsLoop (b0 :: b1 :: b2 :: b3 :: b4 :: b5 :: b6 :: b7 :: rest) 0 0
      = byteOf8 b0 b1 b2 b3 b4 b5 b6 b7 :: packPixelsLoop rest 0 0 := rfl

lemma packPixels_eq_packChunks : ∀ bits : List Bool, packPixels bits = packChunks bits := by
  intro bits
  induction bits using packChunks.induct with
  | case1 => rfl
  | case2 b0 => rfl
  | case3 b0 b1 => rfl
  | case4 b0 b1 b2 => rfl
  | case5 b0 b1 b2 b3 => rfl
  | case6 b0 b1 b2 b3 b4 => rfl
  | case7 b0 b1 b2 b3 b4 b5 => rfl
  | case8 b0 b1 b2 b3 b4 b5 b6 => rfl
  | case9 b0 b1 b2 b3 b4 b5 b6 b7 rest ih =>
      show packPixelsLoop _ 0 0 = _
      rw [packPixelsLoop_chunk]
      rw [packChunks]
      exact congrArg _ ih

/-- OR of the masks the first `m` loop iterations of `packBits` contribute
to byte `j` of the output. -/
def orMask (bits : List Bool) (j : Nat) : Nat → Nat
  | 0 => 0
  | m + 1 =>
      orMask bits j m |||
        (if m / 8 = j ∧ bits.getD m false then 0x80 >>> (m % 8) else 0)

lemma shift128_eq (r : Nat) (h : r < 8) : 128 >>> r = 2 ^ (7 - r) := by
  interval_cases r <;> rfl

lemma orMask_lt (bits : List Bool) (j m : Nat) : orMask bits j m < 256 := by
  induction m with
  | zero => simp [orMask]
  | succ m ih =>
      have h2 : (256 : Nat) = 2 ^ 8 := by norm_num
      rw [orMask]
      split
      · have hr : m % 8 < 8 := Nat.mod_lt _ (by norm_num)
        have : (0x80 : Nat) >>> (m % 8) < 256 := by
          rw [show (0x80 : Nat) = 128 from rfl, shift128_eq _ hr]
          calc 2 ^ (7 - m % 8) ≤ 2 ^ 7 := Nat.pow_le_pow_right (by norm_num) (by omega)
            _ < 256 := by norm_num
        rw [h2] at ih this ⊢
        exact Nat.or_lt_two_pow ih this
      · simpa using ih

lemma testBit_orMask (bits : List Bool) (j : Nat) :
    ∀ m k, k < 8 →
      (Nat.testBit (orMask bits j m) k = true ↔
        ∃ i, i < m ∧ i / 8 = j ∧ i % 8 = 7 - k ∧ bits.getD i false = true) := by
  intro m
  induction m with
  | zero =>
      intro k hk
      simp [orMask]
  | succ m ih =>
      intro k hk
      rw [orMask, Nat.testBit_or]
      constructor
      · intro h
        rcases Bool.or_eq_true_iff.mp h with h | h
        · obtain ⟨i, hi, h1, h2, h3⟩ := (ih k hk).mp h
          exact ⟨i, by omega, h1, h2, h3⟩
        · by_cases hc : m / 8 = j ∧ bits.getD m false
          · rw [if_pos hc] at h
            have hr : m % 8 < 8 := Nat.mod_lt _ (by norm_num)
            rw [show (0x80 : Nat) = 128 from rfl, shift128_eq _ hr,
              Nat.testBit_two_pow] at h
            have : 7 - m % 8 = k := by simpa using h
            exact ⟨m, by omega, hc.1, by omega, hc.2⟩
          · rw [if_neg hc] at h
            simp at h
      · rintro ⟨i, hi, h1, h2, h3⟩
        rcases Nat.lt_succ_iff_lt_or_eq.mp hi with hi' | rfl
        · exact Bool.or_eq_true_iff.mpr (.inl ((ih k hk).mpr ⟨i, hi', h1, h2, h3⟩))
        · refine Bool.or_eq_true_iff.mpr (.inr ?_)
          rw [if_pos ⟨h1, h3⟩]
          have hr : i % 8 < 8 := Nat.mod_lt _ (by norm_num)
          rw [show (0x80 : Nat) = 128 from rfl, shift128_eq _ hr,
            Nat.testBit_two_pow]
          simp only [decide_eq_true_eq]
          omega

lemma packBitsStep_length (bits : List Bool) (arr : List Nat) (i : Nat) :
    (packBitsStep bits arr i).length = arr.length := by
  unfold packBitsStep
  split <;> simp

lemma foldl_packBitsStep_length (bits : List Bool) :
    ∀ (l : List Nat) (arr : List Nat),
      (l.foldl (packBitsStep bits) arr).length = arr.length := by
  intro l
  induction l with
  | nil => intro arr; rfl
  | cons x xs ih =>
      intro arr
      simp only [List.foldl_cons]
      rw [ih, packBitsStep_length]

lemma packBits_fold_getD (bits : List Bool) (j : Nat) :
    ∀ (m : Nat) (arr : List Nat), m ≤ bits.length →
      arr.length = (bits.length + 7) / 8 →
      ((List.range m).foldl (packBitsStep bits) arr).getD j 0
        = arr.getD j 0 ||| orMask bits j m := by
  intro m
  induction m with
  | zero => intro arr _ _; simp [orMask]
  | succ m ih =>
      intro arr hm harr
      rw [List.range_succ, List.foldl_append, List.foldl_cons, List.foldl_nil, orMask]
      set arr' := (List.range m).foldl (packBitsStep bits) arr with harr'
      have hlen : arr'.length = (bits.length + 7) / 8 := by
        rw [harr', foldl_packBitsStep_length, harr]
      have ihm := ih arr (by omega) harr
      unfold packBitsStep
      by_cases hb : bits.getD m false
      · rw [if_pos hb]
        by_cases hj : m / 8 = j
        · subst hj
          have hjlt : m / 8 < arr'.length := by rw [hlen]; omega
          have hset : ((arr'.set (m / 8) (arr'.getD (m / 8) 0 ||| 0x80 >>> (m % 8)))).getD (m / 8) 0
              = arr'.getD (m / 8) 0 ||| 0x80 >>> (m % 8) := by
            simp [List.getD_eq_getElem?_getD, List.getElem?_set_self hjlt]
          rw [hset, ihm, if_pos ⟨rfl, hb⟩, Nat.or_assoc]
        · have : ((arr'.set (m / 8) (arr'.getD (m / 8) 0 ||| 0x80 >>> (m % 8)))).getD j 0
              = arr'.getD j 0 := by
            simp [List.getD_eq_getElem?_getD, List.getElem?_set_ne hj]
          rw [this, ihm]
          have : ¬ (m / 8 = j ∧ bits.getD m false) := fun hc => hj hc.1
          rw [if_neg this]
          simp
      · rw [if_neg hb, ihm]
        have : ¬ (m / 8 = j ∧ bits.getD m false) := fun hc => hb hc.2
        rw [if_neg this]
        simp

lemma packBits_getD (bits : List Bool) (j : Nat) :
    (packBits bits).getD j 0 = orMask bits j bits.length := by
  unfold packBits
  rw [packBits_fold_getD bits j bits.length _ (le_refl _) (by simp)]
  simp [List.getD_eq_getElem?_getD, List.getElem?_replicate]
  split <;> simp

lemma packBits_length (bits : List Bool) :
    (packBits bits).length = (bits.length + 7) / 8 := by
  unfold packBits
  rw [foldl_packBitsStep_length]
  simp

/-- Byte `j`, bit `k` (`k < 8`) of the bdf2fnt packed output holds input
bit `8*j + (7-k)`. -/
lemma packBits_testBit (bits : List Bool) (j k : Nat) (hk : k < 8) :
    Nat.testBit ((packBits bits).getD j 0) k = bits.getD (8 * j + (7 - k)) false := by
  rw [packBits_getD]
  by_cases hi : 8 * j + (7 - k) < bits.length ∧ bits.getD (8 * j + (7 - k)) false = true
  · rw [hi.2]
    exact (testBit_orMask bits j bits.length k hk).mpr ⟨8 * j + (7 - k), hi.1, by omega, by omega, hi.2⟩
  · have hfalse : bits.getD (8 * j + (7 - k)) false = false := by
      by_cases h1 : 8 * j + (7 - k) < bits.length
      · by_contra h
        exact hi ⟨h1, by simpa using h⟩
      · exact List.getD_eq_default _ _ (by omega)
    rw [hfalse]
    by_contra h
    have hT : Nat.testBit (orMask bits j bits.length) k = true := by
      simpa using h
    obtain ⟨i, hlt, h1, h2, h3⟩ := (testBit_orMask bits j bits.length k hk).mp hT
    have hieq : i = 8 * j + (7 - k) := by omega
    rw [hieq] at h3 hlt
    exact hi ⟨hlt, h3⟩

lemma byteOf8_lt (b0 b1 b2 b3 b4 b5 b6 b7 : Bool) :
    byteOf8 b0 b1 b2 b3 b4 b5 b6 b7 < 256 := by
  cases b0 <;> cases b1 <;> cases b2 <;> cases b3 <;>
    cases b4 <;> cases b5 <;> cases b6 <;> cases b7 <;> decide

lemma byteOf8_testBit (b0 b1 b2 b3 b4 b5 b6 b7 : Bool) (k : Nat) (hk : k < 8) :
    Nat.testBit (byteOf8 b0 b1 b2 b3 b4 b5 b6 b7) k
      = [b0, b1, b2, b3, b4, b5, b6, b7].getD (7 - k) false := by
  interval_cases k <;>
    (cases b0 <;> cases b1 <;> cases b2 <;> cases b3 <;>
      cases b4 <;> cases b5 <;> cases b6 <;> cases b7 <;> decide)

lemma getD_singleton_lt (x : Nat) (hx : x < 256) (j : Nat) : ([x].getD j 0) < 256 := by
  cases j <;> simp [List.getD_cons_zero, List.getD_cons_succ, List.getD_nil, hx]

lemma packChunks_length :
    ∀ bits : List Bool, (packChunks bits).length = (bits.length + 7) / 8 := by
  intro bits
  induction bits using packChunks.induct with
  | case1 => simp [packChunks]
  | case2 b0 => simp [packChunks]
  | case3 b0 b1 => simp [packChunks]
  | case4 b0 b1 b2 => simp [packChunks]
  | case5 b0 b1 b2 b3 => simp [packChunks]
  | case6 b0 b1 b2 b3 b4 => simp [packChunks]
  | case7 b0 b1 b2 b3 b4 b5 => simp [packChunks]
  | case8 b0 b1 b2 b3 b4 b5 b6 => simp [packChunks]
  | case9 b0 b1 b2 b3 b4 b5 b6 b7 rest ih =>
      simp only [packChunks, List.length_cons, ih]
      omega

lemma packChunks_getD_lt :
    ∀ (bits : List Bool) (j : Nat), (packChunks bits).getD j 0 < 256 := by
  intro bits
  induction bits using packChunks.induct with
  | case1 => intro j; simp [packChunks, List.getD_nil]
  | case2 b0 => intro j; exact getD_singleton_lt _ (byteOf8_lt _ _ _ _ _ _ _ _) j
  | case3 b0 b1 => intro j; exact getD_singleton_lt _ (byteOf8_lt _ _ _ _ _ _ _ _) j
  | case4 b0 b1 b2 => intro j; exact getD_singleton_lt _ (byteOf8_lt _ _ _ _ _ _ _ _) j
  | case5 b0 b1 b2 b3 => intro j; exact getD_singleton_lt _ (byteOf8_lt _ _ _ _ _ _ _ _) j
  | case6 b0 b1 b2 b3 b4 => intro j; exact getD_singleton_lt _ (byteOf8_lt _ _ _ _ _ _ _ _) j
  | case7 b0 b1 b2 b3 b4 b5 => intro j; exact getD_singleton_lt _ (byteOf8_lt _ _ _ _ _ _ _ _) j
  | case8 b0 b1 b2 b3 b4 b5 b6 => intro j; exact getD_singleton_lt _ (byteOf8_lt _ _ _ _ _ _ _ _) j
  | case9 b0 b1 b2 b3 b4 b5 b6 b7 rest ih =>
      intro j
      cases j with
      | zero => simpa [packChunks, List.getD_cons_zero] using byteOf8_lt b0 b1 b2 b3 b4 b5 b6 b7
      | succ j => simpa [packChunks, List.getD_cons_succ] using ih j

lemma packChunks_testBit :
    ∀ (bits : List Bool) (j k : Nat), k < 8 →
      Nat.testBit ((packChunks bits).getD j 0) k = bits.getD (8 * j + (7 - k)) false := by
  intro bits
  induction bits using packChunks.induct with
  | case1 =>
      intro j k hk
      simp [packChunks, List.getD_nil, Nat.zero_testBit]
  | case2 b0 =>
      intro j k hk
      match j with
      | 0 =>
          simp only [packChunks, List.getD_cons_zero, Nat.mul_zero, Nat.zero_add]
          rw [byteOf8_testBit _ _ _ _ _ _ _ _ k hk]
          interval_cases k <;> rfl
      | j + 1 =>
          have h2 : [b0].getD (8 * (j + 1) + (7 - k)) false = false :=
            List.getD_eq_default _ false (by simp only [List.length_cons, List.length_nil]; omega)
          rw [h2]
          simp [packChunks, List.getD_cons_succ, List.getD_nil, Nat.zero_testBit]
  | case3 b0 b1 =>
      intro j k hk
      match j with
      | 0 =>
          simp only [packChunks, List.getD_cons_zero, Nat.mul_zero, Nat.zero_add]
          rw [byteOf8_testBit _ _ _ _ _ _ _ _ k hk]
          interval_cases k <;> rfl
      | j + 1 =>
          have h2 : [b0, b1].getD (8 * (j + 1) + (7 - k)) false = false :=
            List.getD_eq_default _ false (by simp only [List.length_cons, List.length_nil]; omega)
          rw [h2]
          simp [packChunks, List.getD_cons_succ, List.getD_nil, Nat.zero_testBit]
  | case4 b0 b1 b2 =>
      intro j k hk
      match j with
      | 0 =>
          simp only [packChunks, List.getD_cons_zero, Nat.mul_zero, Nat.zero_add]
          rw [byteOf8_testBit _ _ _ _ _ _ _ _ k hk]
          interval_cases k <;> rfl
      | j + 1 =>
          have h2 : [b0, b1, b2].getD (8 * (j + 1) + (7 - k)) false = false :=
            List.getD_eq_default _ false (by simp only [List.length_cons, List.length_nil]; omega)
          rw [h2]
          simp [packChunks, List.getD_cons_succ, List.getD_nil, Nat.zero_testBit]
  | case5 b0 b1 b2 b3 =>
      intro j k hk
      match j with
      | 0 =>
          simp only [packChunks, List.getD_cons_zero, Nat.mul_zero, Nat.zero_add]
          rw [byteOf8_testBit _ _ _ _ _ _ _ _ k hk]
          interval_cases k <;> rfl
      | j + 1 =>
          have h2 : [b0, b1, b2, b3].getD (8 * (j + 1) + (7 - k)) false = false :=
            List.getD_eq_default _ false (by simp only [List.length_cons, List.length_nil]; omega)
          rw [h2]
          simp [packChunks, List.getD_cons_succ, List.getD_nil, Nat.zero_testBit]
  | case6 b0 b1 b2 b3 b4 =>
      intro j k hk
      match j with
      | 0 =>
          simp only [packChunks, List.getD_cons_zero, Nat.mul_zero, Nat.zero_add]
          rw [byteOf8_testBit _ _ _ _ _ _ _ _ k hk]
          interval_cases k <;> rfl
      | j + 1 =>
          have h2 : [b0, b1, b2, b3, b4].getD (8 * (j + 1) + (7 - k)) false = false :=
            List.getD_eq_default _ false (by simp only [List.length_cons, List.length_nil]; omega)
          rw [h2]
          simp [packChunks, List.getD_cons_succ, List.getD_nil, Nat.zero_testBit]
  | case7 b0 b1 b2 b3 b4 b5 =>
      intro j k hk
      match j with
      | 0 =>
          simp only [packChunks, List.getD_cons_zero, Nat.mul_zero, Nat.zero_add]
          rw [byteOf8_testBit _ _ _ _ _ _ _ _ k hk]
          interval_cases k <;> rfl
      | j + 1 =>
          have h2 : [b0, b1, b2, b3, b4, b5].getD (8 * (j + 1) + (7 - k)) false = false :=
            List.getD_eq_default _ false (by simp only [List.length_cons, List.length_nil]; omega)
          rw [h2]
          simp [packChunks, List.getD_cons_succ, List.getD_nil, Nat.zero_testBit]
  | case8 b0 b1 b2 b3 b4 b5 b6 =>
      intro j k hk
      match j with
      | 0 =>
          simp only [packChunks, List.getD_cons_zero, Nat.mul_zero, Nat.zero_add]
          rw [byteOf8_testBit _ _ _ _ _ _ _ _ k hk]
          interval_cases k <;> rfl
      | j + 1 =>
          have h2 : [b0, b1, b2, b3, b4, b5, b6].getD (8 * (j + 1) + (7 - k)) false = false :=
            List.getD_eq_default _ false (by simp only [List.length_cons, List.length_nil]; omega)
          rw [h2]
          simp [packChunks, List.getD_cons_succ, List.getD_nil, Nat.zero_testBit]
  | case9 b0 b1 b2 b3 b4 b5 b6 b7 rest ih =>
      intro j k hk
      match j with
      | 0 =>
          simp only [packChunks, List.getD_cons_zero, Nat.mul_zero, Nat.zero_add]
          rw [byteOf8_testBit _ _ _ _ _ _ _ _ k hk]
          interval_cases k <;> rfl
      | j + 1 =>
          have hidx : 8 * (j + 1) + (7 - k) = (8 * j + (7 - k)) + 8 := by omega
          rw [hidx]
          simp only [packChunks, List.getD_cons_succ]
          exact ih j k hk

lemma packBits_getD_lt (bits : List Bool) (j : Nat) : (packBits bits).getD j 0 < 256 := by
  rw [packBits_getD]
  exact orMask_lt bits j bits.length

theorem packBits_eq_packPixels (bits : List Bool) : packBits bits = packPixels bits := by
  rw [packPixels_eq_packChunks]
  apply List.ext_getElem
  · rw [packBits_length, packChunks_length]
  · intro i h1 h2
    have hD : (packBits bits).getD i 0 = (packChunks bits).getD i 0 := by
      apply Nat.eq_of_testBit_eq
      intro k
      by_cases hk : k < 8
      · rw [packBits_testBit bits i k hk, packChunks_testBit bits i k hk]
      · have h256 : (256 : Nat) ≤ 2 ^ k := by
          calc (256 : Nat) = 2 ^ 8 := by norm_num
          _ ≤ 2 ^ k := Nat.pow_le_pow_right (by norm_num) (by omega)
        rw [Nat.testBit_lt_two_pow (lt_of_lt_of_le (packBits_getD_lt bits i) h256),
          Nat.testBit_lt_two_pow (lt_of_lt_of_le (packChunks_getD_lt bits i) h256)]
    rwa [List.getD_eq_getElem?_getD, List.getD_eq_getElem?_getD,
      List.getElem?_eq_getElem h1, List.getElem?_eq_getElem h2,
      Option.getD_some, Option.getD_some] at hD

/-- C5: For every W×H binary raster, flattened row-major into a bit list,
both converters pack it identically: the bdf2fnt packer
(`render_glyph_to_fixed_size`, lines 177-188) and the ttf2fnt packer
(`render_glyph`, lines 121-139) produce the same byte sequence; the
output has exactly `ceil(len/8)` bytes (for a W×H raster,
`ceil(W*H/8)`), with no padding between rows since the input is one
flat bit list; and bit `i` in row-major order is stored in byte `i/8`
at bit position `7 - (i mod 8)`. -/
theorem claim_C5_bit_packers_identical (bits : List Bool) :
    packBits bits = packPixels bits
    ∧ (packBits bits).length = (bits.length + 7) / 8
    ∧ ∀ i, i < bits.length →
        Nat.testBit ((packBits bits).getD (i / 8) 0) (7 - i % 8) = bits.getD i false := by
  refine ⟨packBits_eq_packPixels bits, packBits_length bits, ?_⟩
  intro i hi
  have h8 : 7 - i % 8 < 8 := by omega
  rw [packBits_testBit bits (i / 8) (7 - i % 8) h8]
  have : 8 * (i / 8) + (7 - (7 - i % 8)) = i := by omega
  rw [this]

/-- Witness for C5 at a concrete raster. -/
theorem claim_C5_witness :
    Nat.testBit ((packBits [true, false, true, true, false, false, true, false, true]).getD (8 / 8) 0)
        (7 - 8 % 8)
      = [true, false, true, true, false, false, true, false, true].getD 8 false :=
  (claim_C5_bit_packers_identical
    [true, false, true, true, false, false, true, false, true]).2.2 8 (by decide)

/-! ### BDF glyph records and the placement engine
    (bdf2fnt.py `render_glyph_to_fixed_size`, lines 119-188) -/

/-- One glyph record as produced by `parse_bdf` (bdf2fnt.py lines 104-112):
encoding, device width, bounding box, and the raw bitmap row values. -/
structure BdfGlyph where
  encoding : Int
  dwidth : Int
  bbx_w : Int
  bbx_h : Int
  bbx_x : Int
  bbx_y : Int
  bitmap : List Nat
deriving Repr, DecidableEq

/-- `baseline_y = font_ascent - 1` and
`glyph_top_y = baseline_y - (bbx_y + bbx_h - 1)` (bdf2fnt.py lines 147-150). -/
def glyphTopY (fontAscent : Int) (g : BdfGlyph) : Int :=
  (fontAscent - 1) - (g.bbx_y + g.bbx_h - 1)

/-- `glyph_left_x = bbx_x` (bdf2fnt.py line 153). -/
def glyphLeftX (g : BdfGlyph) : Int := g.bbx_x

/-- `byte_width = (bbx_w + 7) // 8 * 8` (bdf2fnt.py line 170); Python `//`
is floor division, i.e. `Int.fdiv`. -/
def byteWidth (g : BdfGlyph) : Int := (g.bbx_w + 7).fdiv 8 * 8

/-- Bit `c` of a source bitmap row: `(row_val >> (byte_width - 1 - c)) & 1`
(bdf2fnt.py lines 171-173). -/
def rowBit (g : BdfGlyph) (rowVal : Nat) (c : Nat) : Bool :=
  (rowVal >>> (byteWidth g - 1 - c).toNat) &&& 1 = 1

/-- Source bit at row `r`, column `c` of a glyph's bitmap. -/
def srcBit (g : BdfGlyph) (r c : Nat) : Bool := rowBit g (g.bitmap.getD r 0) c

/-- The canvas (`[[0] * target_width for _ in range(target_height)]`),
modelled as its indexing function. -/
def emptyCanvas : Int → Int → Bool := fun _ _ => false

/-- `canvas[canvas_y][canvas_x] = 1` as a pointwise function update. -/
def setPixel (canvas : Int → Int → Bool) (cy cx : Int) : Int → Int → Bool :=
  fun y x => if y = cy ∧ x = cx then true else canvas y x

/-- Body of the inner `for bit_idx in range(bbx_w)` loop of bdf2fnt.py
lines 163-174: clip the destination column to `[0, target_width)`, then
copy the source bit. -/
def placeBitStep (g : BdfGlyph) (tw cy : Int) (rowVal : Nat)
    (canvas : Int → Int → Bool) (bitIdx : Nat) : Int → Int → Bool :=
  let cx : Int := glyphLeftX g + (bitIdx : Int)
  if cx < 0 ∨ tw ≤ cx then canvas
  else if rowBit g rowVal bitIdx then setPixel canvas cy cx else canvas

/-- The inner `for bit_idx in range(bbx_w)` loop of bdf2fnt.py lines 163-174. -/
def placeRow (g : BdfGlyph) (tw : Int) (cy : Int) (rowVal : Nat)
    (canvas : Int → Int → Bool) : Int → Int → Bool :=
  (List.range g.bbx_w.toNat).foldl (placeBitStep g tw cy rowVal) canvas

/-- Body of the outer `for row_idx, row_val in enumerate(bitmap)` loop of
bdf2fnt.py lines 156-174: clip the destination row to `[0, target_height)`,
then place the row. -/
def placeRowStep (g : BdfGlyph) (tw th fontAscent : Int)
    (canvas : Int → Int → Bool) (rowIdx : Nat) : Int → Int → Bool :=
  let cy : Int := glyphTopY fontAscent g + (rowIdx : Int)
  if cy < 0 ∨ th ≤ cy then canvas
  else placeRow g tw cy (g.bitmap.getD rowIdx 0) canvas

/-- The outer `for row_idx, row_val in enumerate(bitmap)` loop of
bdf2fnt.py lines 156-174, including the empty-glyph shortcut of line 140. -/
def renderCanvas (g : BdfGlyph) (tw th fontAscent : Int) : Int → Int → Bool :=
  if g.bbx_w = 0 ∨ g.bbx_h = 0 ∨ g.bitmap = [] then emptyCanvas
  else
    (List.range g.bitmap.length).foldl (placeRowStep g tw th fontAscent) emptyCanvas

/-- Flatten the canvas row-major (`for row in canvas: bits.extend(row)`,
bdf2fnt.py lines 177-179). -/
def canvasBits (canvas : Int → Int → Bool) (tw th : Nat) : List Bool :=
  (List.range th).flatMap (fun (y : Nat) =>
    (List.range tw).map (fun (x : Nat) => canvas (y : Int) (x : Int)))

/-- bdf2fnt.py `render_glyph_to_fixed_size` (lines 119-188): place the
glyph on the fixed canvas, flatten, and pack.  `font_descent` is taken
(and ignored) exactly as in the source. -/
def render_glyph_to_fixed_size (g : BdfGlyph) (targetWidth targetHeight : Int)
    (fontAscent fontDescent : Int) : List Nat :=
  let _ := fontDescent
  packBits (canvasBits (renderCanvas g targetWidth targetHeight fontAscent)
    targetWidth.toNat targetHeight.toNat)

lemma placeRow_aux_spec (g : BdfGlyph) (tw cy : Int) (rowVal : Nat) :
    ∀ (m : Nat) (canvas : Int → Int → Bool) (y x : Int),
      (((List.range m).foldl (placeBitStep g tw cy rowVal) canvas) y x = true ↔
        (canvas y x = true ∨
          (y = cy ∧ ∃ c : Nat, c < m ∧ x = glyphLeftX g + (c : Int) ∧
            0 ≤ x ∧ x < tw ∧ rowBit g rowVal c = true))) := by
  intro m
  induction m with
  | zero =>
      intro canvas y x
      simp
  | succ m ih =>
      intro canvas y x
      rw [List.range_succ, List.foldl_append, List.foldl_cons, List.foldl_nil]
      set A := (List.range m).foldl (placeBitStep g tw cy rowVal) canvas with hA
      unfold placeBitStep
      by_cases hout : glyphLeftX g + (m : Int) < 0 ∨ tw ≤ glyphLeftX g + (m : Int)
      · rw [if_pos hout]
        rw [ih canvas y x]
        constructor
        · rintro (h | ⟨hy, c, hc, hx, h0, h1, hb⟩)
          · exact .inl h
          · exact .inr ⟨hy, c, by omega, hx, h0, h1, hb⟩
        · rintro (h | ⟨hy, c, hc, hx, h0, h1, hb⟩)
          · exact .inl h
          · rcases Nat.lt_succ_iff_lt_or_eq.mp hc with hc' | rfl
            · exact .inr ⟨hy, c, hc', hx, h0, h1, hb⟩
            · subst hx; omega
      · rw [if_neg hout]
        by_cases hbit : rowBit g rowVal m = true
        · rw [if_pos hbit]
          unfold setPixel
          by_cases hyx : y = cy ∧ x = glyphLeftX g + (m : Int)
          · rw [if_pos hyx]
            constructor
            · intro _
              exact .inr ⟨hyx.1, m, by omega, hyx.2, by omega, by omega, hbit⟩
            · intro _; rfl
          · rw [if_neg hyx, ih canvas y x]
            constructor
            · rintro (h | ⟨hy, c, hc, hx, h0, h1, hb⟩)
              · exact .inl h
              · exact .inr ⟨hy, c, by omega, hx, h0, h1, hb⟩
            · rintro (h | ⟨hy, c, hc, hx, h0, h1, hb⟩)
              · exact .inl h
              · rcases Nat.lt_succ_iff_lt_or_eq.mp hc with hc' | rfl
                · exact .inr ⟨hy, c, hc', hx, h0, h1, hb⟩
                · exact absurd ⟨hy, hx⟩ hyx
        · rw [if_neg hbit, ih canvas y x]
          constructor
          · rintro (h | ⟨hy, c, hc, hx, h0, h1, hb⟩)
            · exact .inl h
            · exact .inr ⟨hy, c, by omega, hx, h0, h1, hb⟩
          · rintro (h | ⟨hy, c, hc, hx, h0, h1, hb⟩)
            · exact .inl h
            · rcases Nat.lt_succ_iff_lt_or_eq.mp hc with hc' | rfl
              · exact .inr ⟨hy, c, hc', hx, h0, h1, hb⟩
              · rw [hb] at hbit; exact absurd rfl hbit

lemma renderCanvas_aux_spec (g : BdfGlyph) (tw th fa : Int) :
    ∀ (m : Nat) (canvas : Int → Int → Bool) (y x : Int),
      (((List.range m).foldl (placeRowStep g tw th fa) canvas) y x = true ↔
        (canvas y x = true ∨
          ∃ r : Nat, r < m ∧ y = glyphTopY fa g + (r : Int) ∧ 0 ≤ y ∧ y < th ∧
            ∃ c : Nat, c < g.bbx_w.toNat ∧ x = glyphLeftX g + (c : Int) ∧
              0 ≤ x ∧ x < tw ∧ srcBit g r c = true)) := by
  intro m
  induction m with
  | zero =>
      intro canvas y x
      simp
  | succ m ih =>
      intro canvas y x
      rw [List.range_succ, List.foldl_append, List.foldl_cons, List.foldl_nil]
      set A := (List.range m).foldl (placeRowStep g tw th fa) canvas with hA
      unfold placeRowStep
      by_cases hout : glyphTopY fa g + (m : Int) < 0 ∨ th ≤ glyphTopY fa g + (m : Int)
      · rw [if_pos hout]
        rw [ih canvas y x]
        constructor
        · rintro (h | ⟨r, hr, hy, h0, h1, rest⟩)
          · exact .inl h
          · exact .inr ⟨r, by omega, hy, h0, h1, rest⟩
        · rintro (h | ⟨r, hr, hy, h0, h1, rest⟩)
          · exact .inl h
          · rcases Nat.lt_succ_iff_lt_or_eq.mp hr with hr' | rfl
            · exact .inr ⟨r, hr', hy, h0, h1, rest⟩
            · subst hy; omega
      · rw [if_neg hout]
        unfold placeRow
        rw [placeRow_aux_spec g tw _ _ g.bbx_w.toNat A y x, ih canvas y x]
        constructor
        · rintro ((h | ⟨r, hr, hy, h0, h1, rest⟩) | ⟨hy, c, hc, hx, hx0, hx1, hb⟩)
          · exact .inl h
          · exact .inr ⟨r, by omega, hy, h0, h1, rest⟩
          · exact .inr ⟨m, by omega, hy, by omega, by omega, c, hc, hx, hx0, hx1, hb⟩
        · rintro (h | ⟨r, hr, hy, h0, h1, c, hc, hx, hx0, hx1, hb⟩)
          · exact .inl (.inl h)
          · rcases Nat.lt_succ_iff_lt_or_eq.mp hr with hr' | rfl
            · exact .inl (.inr ⟨r, hr', hy, h0, h1, c, hc, hx, hx0, hx1, hb⟩)
            · exact .inr ⟨hy, c, hc, hx, hx0, hx1, hb⟩

/-- Pointwise characterisation of the placed canvas for a non-degenerate
glyph: a pixel is set iff it is the clipped image of a set source bit. -/
lemma renderCanvas_spec (g : BdfGlyph) (tw th fa : Int)
    (hw : ¬ g.bbx_w = 0) (hh : ¬ g.bbx_h = 0) (hbm : ¬ g.bitmap = []) (y x : Int) :
    (renderCanvas g tw th fa y x = true ↔
      ∃ r : Nat, r < g.bitmap.length ∧ y = glyphTopY fa g + (r : Int) ∧ 0 ≤ y ∧ y < th ∧
        ∃ c : Nat, c < g.bbx_w.toNat ∧ x = glyphLeftX g + (c : Int) ∧
          0 ≤ x ∧ x < tw ∧ srcBit g r c = true) := by
  unfold renderCanvas
  rw [if_neg (by push_neg; exact ⟨hw, hh, hbm⟩)]
  rw [renderCanvas_aux_spec g tw th fa g.bitmap.length emptyCanvas y x]
  unfold emptyCanvas
  simp

/-- Out-of-bounds canvas cells are never written. -/
lemma renderCanvas_oob (g : BdfGlyph) (tw th fa : Int) (y x : Int)
    (h : y < 0 ∨ th ≤ y ∨ x < 0 ∨ tw ≤ x) :
    renderCanvas g tw th fa y x = false := by
  by_cases hdeg : g.bbx_w = 0 ∨ g.bbx_h = 0 ∨ g.bitmap = []
  · unfold renderCanvas
    rw [if_pos hdeg]
    rfl
  · push_neg at hdeg
    by_contra hc
    have ht : renderCanvas g tw th fa y x = true := by
      simpa using hc
    obtain ⟨r, hr, hy, h0, h1, c, hcw, hx, hx0, hx1, hb⟩ :=
      (renderCanvas_spec g tw th fa hdeg.1 hdeg.2.1 hdeg.2.2 y x).mp ht
    omega

/-- In-bounds destination cells receive exactly the source bit. -/
lemma renderCanvas_at (g : BdfGlyph) (tw th fa : Int)
    (hh : ¬ g.bbx_h = 0) (r c : Nat)
    (hr : r < g.bitmap.length) (hc : c < g.bbx_w.toNat)
    (hy0 : 0 ≤ glyphTopY fa g + (r : Int)) (hy1 : glyphTopY fa g + (r : Int) < th)
    (hx0 : 0 ≤ glyphLeftX g + (c : Int)) (hx1 : glyphLeftX g + (c : Int) < tw) :
    renderCanvas g tw th fa (glyphTopY fa g + (r : Int)) (glyphLeftX g + (c : Int))
      = srcBit g r c := by
  have hw : ¬ g.bbx_w = 0 := by
    intro h0
    rw [h0] at hc
    simp at hc
  have hbm : ¬ g.bitmap = [] := by
    intro h0
    rw [h0] at hr
    simp at hr
  by_cases hb : srcBit g r c = true
  · rw [hb]
    exact (renderCanvas_spec g tw th fa hw hh hbm _ _).mpr
      ⟨r, hr, rfl, hy0, hy1, c, hc, rfl, hx0, hx1, hb⟩
  · have hbf : srcBit g r c = false := by simpa using hb
    rw [hbf]
    by_contra hcn
    have ht : renderCanvas g tw th fa (glyphTopY fa g + (r : Int)) (glyphLeftX g + (c : Int)) = true := by
      simpa using hcn
    obtain ⟨r', hr', hy, h0, h1, c', hc', hx, hx0', hx1', hb'⟩ :=
      (renderCanvas_spec g tw th fa hw hh hbm _ _).mp ht
    have hrr : r' = r := by omega
    have hcc : c' = c := by omega
    rw [hrr, hcc] at hb'
    rw [hb'] at hbf
    exact Bool.true_eq_false.mp hbf

/-- C4: For every bitmap-source glyph placed by the Placement Engine, the
glyph's top canvas row equals `(ascent - 1) - (boundingBoxOffsetY +
boundingBoxHeight - 1)` and its left column equals `boundingBoxOffsetX`:
source bit `(r, c)` lands on canvas cell `(top + r, left + c)` whenever
that cell is in bounds.  In particular, a glyph with bounding box height
equal to `ascent`, y-offset 0 and one bitmap row per bounding-box row has
its last source bitmap row on canvas row `ascent - 1`. -/
theorem claim_C4_placement (g : BdfGlyph) (tw th ascent : Int) (r c : Nat)
    (hh : ¬ g.bbx_h = 0)
    (hr : r < g.bitmap.length) (hc : c < g.bbx_w.toNat)
    (hy0 : 0 ≤ (ascent - 1) - (g.bbx_y + g.bbx_h - 1) + (r : Int))
    (hy1 : (ascent - 1) - (g.bbx_y + g.bbx_h - 1) + (r : Int) < th)
    (hx0 : 0 ≤ g.bbx_x + (c : Int)) (hx1 : g.bbx_x + (c : Int) < tw) :
    renderCanvas g tw th ascent ((ascent - 1) - (g.bbx_y + g.bbx_h - 1) + (r : Int))
        (g.bbx_x + (c : Int)) = srcBit g r c
    ∧ (g.bbx_h = ascent → g.bbx_y = 0 → g.bitmap.length = g.bbx_h.toNat →
        (ascent - 1) - (g.bbx_y + g.bbx_h - 1) + ((g.bitmap.length : Int) - 1) = ascent - 1) := by
  constructor
  · exact renderCanvas_at g tw th ascent hh r c hr hc hy0 hy1 hx0 hx1
  · intro h1 h2 h3
    omega

/-- Witness for C4 at a concrete 1×1 glyph on a 1×1 canvas. -/
theorem claim_C4_witness :
    renderCanvas ⟨65, 1, 1, 1, 0, 0, [128]⟩ 1 1 1
        ((1 - 1) - ((0 : Int) + 1 - 1) + ((0 : Nat) : Int)) ((0 : Int) + ((0 : Nat) : Int))
      = srcBit ⟨65, 1, 1, 1, 0, 0, [128]⟩ 0 0
    ∧ ((1 : Int) = 1 → (0 : Int) = 0 → ([128] : List Nat).length = (1 : Int).toNat →
        (1 - 1) - ((0 : Int) + 1 - 1) + ((([128] : List Nat).length : Int) - 1) = 1 - 1) :=
  claim_C4_placement ⟨65, 1, 1, 1, 0, 0, [128]⟩ 1 1 1 0 0 (by decide) (by decide)
    (by decide) (by decide) (by decide) (by decide) (by decide)

/-- C8: The Placement Engine writes only to destination coordinates inside
`[0, targetHeight) × [0, targetWidth)`: any cell outside that rectangle is
still clear after placement (oversized glyphs are clipped silently, never
an error and never an out-of-range canvas write), and every source bit
whose destination is in bounds is still placed. -/
theorem claim_C8_placement_clipping (g : BdfGlyph) (tw th ascent : Int) :
    (∀ y x : Int, (y < 0 ∨ th ≤ y ∨ x < 0 ∨ tw ≤ x) →
        renderCanvas g tw th ascent y x = false)
    ∧ (¬ g.bbx_h = 0 → ∀ r c : Nat, r < g.bitmap.length → c < g.bbx_w.toNat →
        0 ≤ glyphTopY ascent g + (r : Int) → glyphTopY ascent g + (r : Int) < th →
        0 ≤ glyphLeftX g + (c : Int) → glyphLeftX g + (c : Int) < tw →
        renderCanvas g tw th ascent (glyphTopY ascent g + (r : Int))
            (glyphLeftX g + (c : Int)) = srcBit g r c) := by
  constructor
  · intro y x h
    exact renderCanvas_oob g tw th ascent y x h
  · intro hh r c hr hc hy0 hy1 hx0 hx1
    exact renderCanvas_at g tw th ascent hh r c hr hc hy0 hy1 hx0 hx1

/-- Witness for C8: an out-of-bounds cell stays clear and the in-bounds
bit of a concrete glyph is placed. -/
theorem claim_C8_witness :
    renderCanvas ⟨65, 1, 1, 1, 0, 0, [128]⟩ 1 1 1 (-1) 5 = false
    ∧ renderCanvas ⟨65, 1, 1, 1, 0, 0, [128]⟩ 1 1 1
        (glyphTopY 1 ⟨65, 1, 1, 1, 0, 0, [128]⟩ + ((0 : Nat) : Int))
        (glyphLeftX ⟨65, 1, 1, 1, 0, 0, [128]⟩ + ((0 : Nat) : Int))
      = srcBit ⟨65, 1, 1, 1, 0, 0, [128]⟩ 0 0 :=
  ⟨(claim_C8_placement_clipping ⟨65, 1, 1, 1, 0, 0, [128]⟩ 1 1 1).1 (-1) 5 (by decide),
    (claim_C8_placement_clipping ⟨65, 1, 1, 1, 0, 0, [128]⟩ 1 1 1).2 (by decide) 0 0
      (by decide) (by decide) (by decide) (by decide) (by decide) (by decide)⟩

/-! ### BDF parser (bdf2fnt.py `parse_bdf`, lines 36-116)

Each input line is classified by the `startswith` tests of the source:
font-level property lines, glyph markers, glyph field lines, hexadecimal
bitmap rows, blank lines, and anything else.  A non-hex, non-blank line
inside a BITMAP section makes Python's `int(hex_str, 16)` raise, so the
model returns `none` there. -/

/-- One classified line of a BDF source. -/
inductive BdfLine where
  | fontboundingbox (w h x y : Int)
  | fontAscent (n : Int)
  | fontDescent (n : Int)
  | chars (n : Int)
  | startchar
  | encoding (n : Int)
  | dwidth (n : Int)
  | bbx (w h x y : Int)
  | bitmap
  | endchar
  | row (v : Nat)
  | blank
  | other
deriving Repr, DecidableEq

/-- The dynamic property dict of `parse_bdf` (keys set on lines 56-67). -/
structure BdfProps where
  fbb_width : Option Int := none
  fbb_height : Option Int := none
  fbb_x : Option Int := none
  fbb_y : Option Int := none
  ascent : Option Int := none
  descent : Option Int := none
  char_count : Option Int := none
deriving Repr, DecidableEq

/-- The `while ... != 'ENDCHAR'` bitmap-row loop of bdf2fnt.py lines 92-97.
Returns the collected rows and the remaining lines, still starting at the
`ENDCHAR` line (the cursor is advanced past it by the caller).  Any other
keyword line in a bitmap section is not valid hexadecimal, so Python's
`int(hex_str, 16)` raises: the model returns `none`. -/
def readBitmapRows : List BdfLine → Option (List Nat × List BdfLine)
  | [] => some ([], [])
  | .endchar :: ls => some ([], .endchar :: ls)
  | .row v :: ls =>
      match readBitmapRows ls with
      | some (rs, rest) => some (v :: rs, rest)
      | none => none
  | .blank :: ls => readBitmapRows ls
  | .fontboundingbox _ _ _ _ :: _ => none
  | .fontAscent _ :: _ => none
  | .fontDescent _ :: _ => none
  | .chars _ :: _ => none
  | .startchar :: _ => none
  | .encoding _ :: _ => none
  | .dwidth _ :: _ => none
  | .bbx _ _ _ _ :: _ => none
  | .bitmap :: _ => none
  | .other :: _ => none

/-- The per-glyph mutable locals of bdf2fnt.py lines 71-74. -/
structure GlyphAcc where
  encoding : Option Int := none
  dwidth : Int := 0
  bbx_w : Int := 0
  bbx_h : Int := 0
  bbx_x : Int := 0
  bbx_y : Int := 0
deriving Repr, DecidableEq

/-- The inner glyph-block loop of bdf2fnt.py lines 76-100: collect
ENCODING/DWIDTH/BBX fields until BITMAP (then read rows and stop, with
the cursor moved past the `ENDCHAR`) or end of input; every other line
is skipped. -/
def scanGlyph : GlyphAcc → List BdfLine → Option (GlyphAcc × List Nat × List BdfLine)
  | acc, [] => some (acc, [], [])
  | acc, .encoding n :: ls => scanGlyph { acc with encoding := some n } ls
  | acc, .dwidth n :: ls => scanGlyph { acc with dwidth := n } ls
  | acc, .bbx w h x y :: ls =>
      scanGlyph
        { acc with
            bbx_w := w
            bbx_h := h
            bbx_x := x
            bbx_y := y } ls
  | acc, .bitmap :: ls =>
      match readBitmapRows ls with
      | some (rows, rest) => some (acc, rows, rest.drop 1)
      | none => none
  | acc, .fontboundingbox _ _ _ _ :: ls => scanGlyph acc ls
  | acc, .fontAscent _ :: ls => scanGlyph acc ls
  | acc, .fontDescent _ :: ls => scanGlyph acc ls
  | acc, .chars _ :: ls => scanGlyph acc ls
  | acc, .startchar :: ls => scanGlyph acc ls
  | acc, .endchar :: ls => scanGlyph acc ls
  | acc, .row _ :: ls => scanGlyph acc ls
  | acc, .blank :: ls => scanGlyph acc ls
  | acc, .other :: ls => scanGlyph acc ls

lemma readBitmapRows_length :
    ∀ (ls : List BdfLine) (rs : List Nat) (rest : List BdfLine),
      readBitmapRows ls = some (rs, rest) → rest.length ≤ ls.length := by
  intro ls
  induction ls with
  | nil =>
      intro rs rest h
      simp only [readBitmapRows, Option.some.injEq, Prod.mk.injEq] at h
      rw [← h.2]
  | cons l ls ih =>
      intro rs rest h
      cases l with
      | endchar =>
          simp only [readBitmapRows, Option.some.injEq, Prod.mk.injEq] at h
          rw [← h.2]
      | row v =>
          rw [readBitmapRows] at h
          cases hrec : readBitmapRows ls with
          | none => rw [hrec] at h; exact absurd h (by simp)
          | some p =>
              obtain ⟨rs', rest'⟩ := p
              rw [hrec] at h
              simp only [Option.some.injEq, Prod.mk.injEq] at h
              have := ih rs' rest' hrec
              rw [← h.2]
              simp only [List.length_cons]
              omega
      | blank =>
          rw [readBitmapRows] at h
          have := ih rs rest h
          simp only [List.length_cons]
          omega
      | fontboundingbox w hh x y => rw [readBitmapRows] at h; exact absurd h (by simp)
      | fontAscent n => rw [readBitmapRows] at h; exact absurd h (by simp)
      | fontDescent n => rw [readBitmapRows] at h; exact absurd h (by simp)
      | chars n => rw [readBitmapRows] at h; exact absurd h (by simp)
      | startchar => rw [readBitmapRows] at h; exact absurd h (by simp)
      | encoding n => rw [readBitmapRows] at h; exact absurd h (by simp)
      | dwidth n => rw [readBitmapRows] at h; exact absurd h (by simp)
      | bbx w hh x y => rw [readBitmapRows] at h; exact absurd h (by simp)
      | bitmap => rw [readBitmapRows] at h; exact absurd h (by simp)
      | other => rw [readBitmapRows] at h; exact absurd h (by simp)

lemma scanGlyph_length :
    ∀ (ls : List BdfLine) (acc acc' : GlyphAcc) (rows : List Nat) (rest : List BdfLine),
      scanGlyph acc ls = some (acc', rows, rest) → rest.length ≤ ls.length := by
  intro ls
  induction ls with
  | nil =>
      intro acc acc' rows rest h
      simp only [scanGlyph, Option.some.injEq, Prod.mk.injEq] at h
      rw [← h.2.2]
  | cons l ls ih =>
      intro acc acc' rows rest h
      cases l with
      | encoding n =>
          rw [scanGlyph] at h
          have := ih _ _ _ _ h
          simp only [List.length_cons]; omega
      | dwidth n =>
          rw [scanGlyph] at h
          have := ih _ _ _ _ h
          simp only [List.length_cons]; omega
      | bbx w hh x y =>
          rw [scanGlyph] at h
          have := ih _ _ _ _ h
          simp only [List.length_cons]; omega
      | bitmap =>
          rw [scanGlyph] at h
          cases hrec : readBitmapRows ls with
          | none => rw [hrec] at h; exact absurd h (by simp)
          | some p =>
              obtain ⟨rs', rest'⟩ := p
              rw [hrec] at h
              simp only [Option.some.injEq, Prod.mk.injEq] at h
              have := readBitmapRows_length ls rs' rest' hrec
              rw [← h.2.2]
              simp only [List.length_cons, List.length_drop]
              omega
      | fontboundingbox w hh x y =>
          rw [scanGlyph] at h
          have := ih _ _ _ _ h
          simp only [List.length_cons]; omega
      | fontAscent n =>
          rw [scanGlyph] at h
          have := ih _ _ _ _ h
          simp only [List.length_cons]; omega
      | fontDescent n =>
          rw [scanGlyph] at h
          have := ih _ _ _ _ h
          simp only [List.length_cons]; omega
      | chars n =>
          rw [scanGlyph] at h
          have := ih _ _ _ _ h
          simp only [List.length_cons]; omega
      | startchar =>
          rw [scanGlyph] at h
          have := ih _ _ _ _ h
          simp only [List.length_cons]; omega
      | endchar =>
          rw [scanGlyph] at h
          have := ih _ _ _ _ h
          simp only [List.length_cons]; omega
      | row v =>
          rw [scanGlyph] at h
          have := ih _ _ _ _ h
          simp only [List.length_cons]; omega
      | blank =>
          rw [scanGlyph] at h
          have := ih _ _ _ _ h
          simp only [List.length_cons]; omega
      | other =>
          rw [scanGlyph] at h
          have := ih _ _ _ _ h
          simp only [List.length_cons]; omega

/-- The outer line loop of bdf2fnt.py lines 51-114: font-level property
lines update the property dict; a `STARTCHAR` enters the glyph scan and
appends the glyph when its encoding is present and `>= 0`; every other
line is skipped. -/
def parseBdfLoop (props : BdfProps) (glyphs : List BdfGlyph) :
    List BdfLine → Option (BdfProps × List BdfGlyph)
  | [] => some (props, glyphs)
  | .fontboundingbox w h x y :: ls =>
      parseBdfLoop
        { props with
            fbb_width := some w
            fbb_height := some h
            fbb_x := some x
            fbb_y := some y } glyphs ls
  | .fontAscent n :: ls => parseBdfLoop { props with ascent := some n } glyphs ls
  | .fontDescent n :: ls => parseBdfLoop { props with descent := some n } glyphs ls
  | .chars n :: ls => parseBdfLoop { props with char_count := some n } glyphs ls
  | .startchar :: ls =>
      match hscan : scanGlyph {} ls with
      | none => none
      | some (acc, rows, rest) =>
          let glyphs' :=
            match acc.encoding with
            | some e =>
                if 0 ≤ e then
                  glyphs ++ [⟨e, acc.dwidth, acc.bbx_w, acc.bbx_h, acc.bbx_x, acc.bbx_y, rows⟩]
                else glyphs
            | none => glyphs
          parseBdfLoop props glyphs' rest
  | .encoding _ :: ls => parseBdfLoop props glyphs ls
  | .dwidth _ :: ls => parseBdfLoop props glyphs ls
  | .bbx _ _ _ _ :: ls => parseBdfLoop props glyphs ls
  | .bitmap :: ls => parseBdfLoop props glyphs ls
  | .endchar :: ls => parseBdfLoop props glyphs ls
  | .row _ :: ls => parseBdfLoop props glyphs ls
  | .blank :: ls => parseBdfLoop props glyphs ls
  | .other :: ls => parseBdfLoop props glyphs ls
termination_by ls => ls.length
decreasing_by
  all_goals simp_wf
  · have := scanGlyph_length ls {} acc rows rest hscan
    omega

/-- bdf2fnt.py `parse_bdf` (lines 36-116): scan all lines starting from an
empty property dict and an empty glyph list. -/
def parse_bdf (lines : List BdfLine) : Option (BdfProps × List BdfGlyph) :=
  parseBdfLoop {} [] lines

/-! ### Behaviour of `parse_bdf` on glyph blocks (claim C3) -/

/-- A well-formed glyph block of a BDF source. -/
structure SrcGlyphBlock where
  enc : Int
  dw : Int
  w : Int
  h : Int
  x : Int
  y : Int
  rows : List Nat
deriving Repr, DecidableEq

/-- The lines of a well-formed glyph block: STARTCHAR, ENCODING, DWIDTH,
BBX, BITMAP, the hex rows, ENDCHAR. -/
def glyphBlockLines (b : SrcGlyphBlock) : List BdfLine :=
  .startchar :: .encoding b.enc :: .dwidth b.dw :: .bbx b.w b.h b.x b.y :: .bitmap ::
    (b.rows.map .row ++ [.endchar])

/-- The glyph record `parse_bdf` stores for a well-formed block
(bdf2fnt.py lines 104-112). -/
def recordOf (b : SrcGlyphBlock) : BdfGlyph :=
  ⟨b.enc, b.dw, b.w, b.h, b.x, b.y, b.rows⟩

/-- A malformed glyph block: a STARTCHAR block carrying an encoding and a
bounding box but no BITMAP marker before its ENDCHAR. -/
def malformedBlockLines (e w h x y : Int) : List BdfLine :=
  [.startchar, .encoding e, .bbx w h x y, .endchar]

lemma readBitmapRows_rows :
    ∀ (rows : List Nat) (rest : List BdfLine),
      readBitmapRows (rows.map .row ++ .endchar :: rest)
        = some (rows, .endchar :: rest) := by
  intro rows
  induction rows with
  | nil => intro rest; simp [readBitmapRows]
  | cons v vs ih =>
      intro rest
      simp only [List.map_cons, List.cons_append]
      rw [readBitmapRows, ih]

lemma scanGlyph_block (acc : GlyphAcc) (e dw w h x y : Int) (rows : List Nat)
    (rest : List BdfLine) :
    scanGlyph acc (.encoding e :: .dwidth dw :: .bbx w h x y :: .bitmap ::
        (rows.map .row ++ .endchar :: rest))
      = some (⟨some e, dw, w, h, x, y⟩, rows, rest) := by
  cases acc
  simp only [scanGlyph]
  rw [readBitmapRows_rows]
  simp

lemma scanGlyph_malformed_absorb (e1 w1 h1 x1 y1 : Int) (b : SrcGlyphBlock)
    (rest : List BdfLine) :
    scanGlyph {} (.encoding e1 :: .bbx w1 h1 x1 y1 :: .endchar ::
        (glyphBlockLines b ++ rest))
      = some (⟨some b.enc, b.dw, b.w, b.h, b.x, b.y⟩, b.rows, rest) := by
  have hlines : glyphBlockLines b ++ rest
      = .startchar :: .encoding b.enc :: .dwidth b.dw :: .bbx b.w b.h b.x b.y :: .bitmap ::
          (b.rows.map .row ++ .endchar :: rest) := by
    simp [glyphBlockLines]
  rw [hlines]
  simp only [scanGlyph]
  rw [readBitmapRows_rows]
  simp

lemma parseBdfLoop_block (props : BdfProps) (glyphs : List BdfGlyph)
    (b : SrcGlyphBlock) (rest : List BdfLine) (hb : 0 ≤ b.enc) :
    parseBdfLoop props glyphs (glyphBlockLines b ++ rest)
      = parseBdfLoop props (glyphs ++ [recordOf b]) rest := by
  have hlines : glyphBlockLines b ++ rest
      = .startchar :: (.encoding b.enc :: .dwidth b.dw :: .bbx b.w b.h b.x b.y :: .bitmap ::
          (b.rows.map .row ++ .endchar :: rest)) := by
    simp [glyphBlockLines]
  rw [hlines]
  simp only [parseBdfLoop]
  rw [scanGlyph_block]
  simp only [recordOf]
  rw [if_pos hb]

lemma parseBdfLoop_blocks (bs : List SrcGlyphBlock) :
    ∀ (props : BdfProps) (glyphs : List BdfGlyph),
      (∀ b ∈ bs, 0 ≤ b.enc) →
      parseBdfLoop props glyphs (bs.flatMap glyphBlockLines)
        = some (props, glyphs ++ bs.map recordOf) := by
  induction bs with
  | nil =>
      intro props glyphs _
      simp [parseBdfLoop]
  | cons b bs ih =>
      intro props glyphs hb
      rw [List.flatMap_cons]
      rw [parseBdfLoop_block props glyphs b _ (hb b (by simp))]
      rw [ih props (glyphs ++ [recordOf b]) (fun b' hb' => hb b' (by simp [hb']))]
      simp

lemma parseBdfLoop_malformed (props : BdfProps) (glyphs : List BdfGlyph)
    (e1 w1 h1 x1 y1 : Int) (b : SrcGlyphBlock) (rest : List BdfLine)
    (hb : 0 ≤ b.enc) :
    parseBdfLoop props glyphs
        (malformedBlockLines e1 w1 h1 x1 y1 ++ (glyphBlockLines b ++ rest))
      = parseBdfLoop props (glyphs ++ [recordOf b]) rest := by
  have hlines : malformedBlockLines e1 w1 h1 x1 y1 ++ (glyphBlockLines b ++ rest)
      = .startchar :: (.encoding e1 :: .bbx w1 h1 x1 y1 :: .endchar ::
          (glyphBlockLines b ++ rest)) := by
    simp [malformedBlockLines]
  rw [hlines]
  simp only [parseBdfLoop]
  rw [scanGlyph_malformed_absorb]
  simp only [recordOf]
  rw [if_pos hb]

/-- C3: a BDF source consisting of a malformed glyph block (STARTCHAR with
no BITMAP marker) followed by well-formed glyph blocks yields exactly one
glyph record per well-formed block: the malformed block is skipped, every
subsequent block is parsed. -/
theorem claim_C3_malformed_block_skipped (e1 w1 h1 x1 y1 : Int)
    (b : SrcGlyphBlock) (bs : List SrcGlyphBlock)
    (hb : 0 ≤ b.enc) (hbs : ∀ b' ∈ bs, 0 ≤ b'.enc) :
    parse_bdf (malformedBlockLines e1 w1 h1 x1 y1 ++ glyphBlockLines b
        ++ bs.flatMap glyphBlockLines)
      = some ({}, (b :: bs).map recordOf) := by
  unfold parse_bdf
  rw [List.append_assoc]
  rw [parseBdfLoop_malformed {} [] e1 w1 h1 x1 y1 b _ hb]
  rw [parseBdfLoop_blocks bs {} ([] ++ [recordOf b]) hbs]
  simp

/-- Witness for C3: a malformed block (encoding 65, no BITMAP) followed by
two well-formed blocks yields exactly the two well-formed records. -/
theorem claim_C3_witness :
    parse_bdf (malformedBlockLines 65 1 1 0 0
        ++ glyphBlockLines ⟨66, 6, 1, 1, 0, 0, [128]⟩
        ++ ([⟨67, 6, 1, 1, 0, 0, [64]⟩] : List SrcGlyphBlock).flatMap glyphBlockLines)
      = some ({}, (⟨66, 6, 1, 1, 0, 0, [128]⟩ :: [⟨67, 6, 1, 1, 0, 0, [64]⟩]
          : List SrcGlyphBlock).map recordOf) :=
  claim_C3_malformed_block_skipped 65 1 1 0 0 ⟨66, 6, 1, 1, 0, 0, [128]⟩
    [⟨67, 6, 1, 1, 0, 0, [64]⟩] (by decide) (by decide)

/-! ### bdf2fnt container encoder (`create_fnt_file`, lines 191-264) -/

/-- `font_ascent = properties.get('ascent', properties.get('fbb_height', 9))`
(bdf2fnt.py line 203). -/
def fontAscentOf (p : BdfProps) : Int := p.ascent.getD (p.fbb_height.getD 9)

/-- `font_descent = properties.get('descent', 0)` (bdf2fnt.py line 204). -/
def fontDescentOf (p : BdfProps) : Int := p.descent.getD 0

/-- `target_width = properties.get('fbb_width', 9)` unless overridden
(bdf2fnt.py lines 206-207). -/
def targetWidthOf (p : BdfProps) (widthOpt : Option Int) : Int :=
  widthOpt.getD (p.fbb_width.getD 9)

/-- `target_height = font_ascent + font_descent` unless overridden
(bdf2fnt.py lines 208-209). -/
def targetHeightOf (p : BdfProps) (heightOpt : Option Int) : Int :=
  heightOpt.getD (fontAscentOf p + fontDescentOf p)

/-! `struct.pack` unsigned formats (`B`, `H`, `I`) are range-checked and
raise `struct.error` outside `[0, 2^k)`; modelled as `Option` byte lists
(little-endian). -/

def packU8 (n : Int) : Option (List Nat) :=
  if 0 ≤ n ∧ n < 256 then some [n.toNat] else none

def packU16le (n : Int) : Option (List Nat) :=
  if 0 ≤ n ∧ n < 65536 then some [n.toNat % 256, n.toNat / 256] else none

def packU32le (n : Int) : Option (List Nat) :=
  if 0 ≤ n ∧ n < 4294967296 then
    some [n.toNat % 256, n.toNat / 256 % 256, n.toNat / 65536 % 256,
      n.toNat / 16777216 % 256]
  else none

/-- The fixed-format header, `struct.pack('<4sBBBBII', b'TFNT', 1, width,
height, 0, glyph_count, 16)` (bdf2fnt.py lines 231-239). -/
def fntHeader (tw th : Int) (count : Nat) : Option (List Nat) := do
  let wb ← packU8 tw
  let hb ← packU8 th
  let cb ← packU32le (count : Int)
  let ib ← packU32le 16
  some ([0x54, 0x46, 0x4E, 0x54] ++ [1] ++ wb ++ hb ++ [0] ++ cb ++ ib)

/-- bdf2fnt.py lines 213-215: keep codepoints in `1..65535`
(`0 < g['encoding'] <= 65535`), then sort ascending by encoding. -/
def validGlyphs (glyphs : List BdfGlyph) : List BdfGlyph :=
  (glyphs.filter (fun g => decide (0 < g.encoding ∧ g.encoding ≤ 65535))).mergeSort
    (fun a b => decide (a.encoding ≤ b.encoding))

/-- bdf2fnt.py lines 242-249: `bitmap_start = 16 + glyph_count * 6` and
`offset = bitmap_start + i * bytes_per_glyph`. -/
def bdfIndexOffsets (count : Nat) (bytesPerGlyph : Int) : List Int :=
  (List.range count).map (fun (i : Nat) =>
    16 + (count : Int) * 6 + (i : Int) * bytesPerGlyph)

/-- bdf2fnt.py line 250: `index_data += struct.pack('<HI', codepoint, offset)`
for each entry. -/
def packBdfIndex : List (Int × Int) → Option (List Nat)
  | [] => some []
  | (cp, off) :: rest => do
      let cb ← packU16le cp
      let ob ← packU32le off
      let rb ← packBdfIndex rest
      some (cb ++ ob ++ rb)

/-- bdf2fnt.py `create_fnt_file` (lines 191-257), modelled up to the byte
sequence written to the output file.  There is no emptiness check in the
source: a font with zero valid glyphs still produces a 16-byte container
with `glyph_count = 0`. -/
def create_fnt_file (props : BdfProps) (glyphs : List BdfGlyph)
    (widthOpt heightOpt : Option Int) : Option (List Nat) :=
  let fontAscent := fontAscentOf props
  let fontDescent := fontDescentOf props
  let tw := targetWidthOf props widthOpt
  let th := targetHeightOf props heightOpt
  let valid := validGlyphs glyphs
  let rendered := valid.map (fun g =>
    (g.encoding, render_glyph_to_fixed_size g tw th fontAscent fontDescent))
  let bytesPerGlyph : Int := (tw * th + 7).fdiv 8
  let count := rendered.length
  do
    let header ← fntHeader tw th count
    let index ← packBdfIndex ((rendered.map Prod.fst).zip (bdfIndexOffsets count bytesPerGlyph))
    let blob := rendered.flatMap (fun pr => pr.2)
    some (header ++ index ++ blob)

/-! ### ttf2fnt outline adapter and container encoder -/

/-- ttf2fnt.py `render_glyph`, lines 84-93 (the empty-ink-bounding-box
branch): when `font.getbbox(char)` reports an empty box, the ASCII space
(0x20) yields `(bytes(1), size // 3, size)` — a single zero byte — and any
other codepoint is unavailable (`None, 0, 0`). -/
def render_glyph_empty_bbox (codepoint : Nat) (size : Nat) :
    Option (List Nat × Nat × Nat) :=
  if codepoint = 0x20 then some ([0], size / 3, size) else none

/-- ttf2fnt.py `get_font_codepoints` (lines 46-64): the set of Unicode cmap
keys (a Python `set`, modelled by `dedup`), filtered to `cp >= 0x20`,
returned sorted ascending. -/
def get_font_codepoints (cmapKeys : List Nat) : List Nat :=
  ((cmapKeys.dedup).filter (fun cp => decide (0x20 ≤ cp))).mergeSort
    (fun a b => decide (a ≤ b))

/-- One iteration of the glyph-rendering loop of ttf2fnt.py lines 175-181:
render one codepoint through the opaque rasterizer and keep
`(cp, bitmap, width, height)` when `bitmap and width > 0 and height > 0`. -/
def ttfKeep (render : Nat → Option (List Nat × Nat × Nat)) (cp : Nat) :
    Option (Nat × List Nat × Nat × Nat) :=
  match render cp with
  | some (bm, w, h) => if bm ≠ [] ∧ 0 < w ∧ 0 < h then some (cp, bm, w, h) else none
  | none => none

/-- The glyph-rendering loop of ttf2fnt.py lines 171-181. -/
def ttfRenderAll (render : Nat → Option (List Nat × Nat × Nat)) (cps : List Nat) :
    List (Nat × List Nat × Nat × Nat) :=
  cps.filterMap (ttfKeep render)

/-- `max_width = max(max_width, width)` accumulation (ttf2fnt.py line 179). -/
def maxWidthOf (glyphs : List (Nat × List Nat × Nat × Nat)) : Nat :=
  glyphs.foldl (fun m g => max m g.2.2.1) 0

/-- `max_height = max(max_height, height)` accumulation (ttf2fnt.py line 180). -/
def maxHeightOf (glyphs : List (Nat × List Nat × Nat × Nat)) : Nat :=
  glyphs.foldl (fun m g => max m g.2.2.2) 0

/-- ttf2fnt.py lines 216-222: the running `bitmap_offset`, starting at
`header_size + index_size` and advanced by each bitmap's length, paired
with each glyph's codepoint and dimensions. -/
def ttfIndexEntries (off : Nat) :
    List (Nat × List Nat × Nat × Nat) → List (Nat × Nat × Nat × Nat)
  | [] => []
  | (cp, bm, w, h) :: rest => (cp, off, w, h) :: ttfIndexEntries (off + bm.length) rest

/-- `struct.pack('<IIBB', cp, bitmap_offset, width, height)` for one index
entry (ttf2fnt.py line 220). -/
def packTtfEntry (e : Nat × Nat × Nat × Nat) : Option (List Nat) := do
  let cb ← packU32le (e.1 : Int)
  let ob ← packU32le (e.2.1 : Int)
  let wb ← packU8 (e.2.2.1 : Int)
  let hb ← packU8 (e.2.2.2 : Int)
  some (cb ++ ob ++ wb ++ hb)

/-- The index-table write loop of ttf2fnt.py lines 217-222. -/
def packTtfIndex : List (Nat × Nat × Nat × Nat) → Option (List Nat)
  | [] => some []
  | e :: rest => do
      let eb ← packTtfEntry e
      let rb ← packTtfIndex rest
      some (eb ++ rb)

/-- The variable-format header `struct.pack('<4sBBBBII', b'TFNT', 1,
max_width, max_height, 1, glyph_count, 0)` (ttf2fnt.py lines 205-213). -/
def ttfHeader (maxW maxH count : Nat) : Option (List Nat) := do
  let wb ← packU8 (maxW : Int)
  let hb ← packU8 (maxH : Int)
  let cb ← packU32le (count : Int)
  let rb ← packU32le 0
  some ([0x54, 0x46, 0x4E, 0x54] ++ [1] ++ wb ++ hb ++ [1] ++ cb ++ rb)

/-- Fatal outcomes of `create_font_file`: the explicit empty-result check of
ttf2fnt.py lines 189-191, and an uncaught `struct.error` from `struct.pack`. -/
inductive TtfError where
  | emptyResult
  | structError
deriving Repr, DecidableEq

/-- ttf2fnt.py `create_font_file` (lines 142-235), modelled up to the byte
sequence written to the output file: render all codepoints, fail with the
empty-result error before any output when nothing rendered (`if not glyphs:
return False`), otherwise emit header, index and bitmap blob; a
`struct.pack` range error surfaces as `structError`. -/
def create_font_file (render : Nat → Option (List Nat × Nat × Nat))
    (cmapKeys : List Nat) : Except TtfError (List Nat) :=
  let codepoints := get_font_codepoints cmapKeys
  let glyphs := ttfRenderAll render codepoints
  let maxW := maxWidthOf glyphs
  let maxH := maxHeightOf glyphs
  if glyphs = [] then .error .emptyResult
  else
    let entries := ttfIndexEntries (16 + glyphs.length * 10) glyphs
    match ttfHeader maxW maxH glyphs.length, packTtfIndex entries with
    | some header, some index =>
        .ok (header ++ index ++ glyphs.flatMap (fun g => g.2.1))
    | _, _ => .error .structError

/-- C1 (evaluation at the failing input): at size 12 the outline adapter's
space branch returns width `12/3 = 4`, height `12`, and an all-zero packed
bitmap of a single byte (`bytes(1)`) — not `ceil((12/3)*12/8) = 6` bytes as
the claim (and the byte-length rule documented at the top of ttf2fnt.py)
requires. -/
theorem claim_C1_space_bitmap_short :
    render_glyph_empty_bbox 0x20 12 = some ([0], 12 / 3, 12)
    ∧ ([0] : List Nat).length = 1
    ∧ ((12 / 3) * 12 + 7) / 8 = 6 := by decide

/-- C9 counterexample: parsing a source that declares a font bounding box of
height 7 but no FONT_ASCENT/FONT_DESCENT, the descent falls back to 0, not
to the bounding box height — refuting "both ascent and descent fall back to
the font bounding box height". -/
theorem claim_C9_counterexample :
    parse_bdf [.fontboundingbox 5 7 0 (-1)]
      = some (⟨some 5, some 7, some 0, some (-1), none, none, none⟩, [])
    ∧ fontDescentOf ⟨some 5, some 7, some 0, some (-1), none, none, none⟩ = 0
    ∧ ¬ fontDescentOf ⟨some 5, some 7, some 0, some (-1), none, none, none⟩ = 7 := by
  refine ⟨?_, rfl, by decide⟩
  simp [parse_bdf, parseBdfLoop]

/-- C9 (amended): when the source declares neither FONT_ASCENT nor
FONT_DESCENT, the ascent falls back to the font bounding box height (9 when
that too is absent), the descent falls back to 0, and the fixed-format
target canvas height is ascent + descent unless overridden on the command
line. -/
theorem claim_C9_metric_defaults (p : BdfProps)
    (hA : p.ascent = none) (hD : p.descent = none) :
    fontAscentOf p = p.fbb_height.getD 9
    ∧ fontDescentOf p = 0
    ∧ targetHeightOf p none = fontAscentOf p + fontDescentOf p
    ∧ (∀ hov : Int, targetHeightOf p (some hov) = hov) := by
  refine ⟨?_, ?_, rfl, fun hov => rfl⟩ <;>
    simp [fontAscentOf, fontDescentOf, hA, hD]

/-- Witness for C9 at a concrete property bag. -/
theorem claim_C9_witness :
    fontAscentOf { fbb_height := some 7 }
        = ({ fbb_height := some 7 } : BdfProps).fbb_height.getD 9
    ∧ fontDescentOf { fbb_height := some 7 } = 0
    ∧ targetHeightOf { fbb_height := some 7 } none
        = fontAscentOf { fbb_height := some 7 } + fontDescentOf { fbb_height := some 7 }
    ∧ (∀ hov : Int, targetHeightOf { fbb_height := some 7 } (some hov) = hov) :=
  claim_C9_metric_defaults { fbb_height := some 7 } rfl rfl

/-- C2 counterexample: a BDF source whose only glyph has encoding 0 (dropped
by the `1..65535` filter) leaves zero surviving glyphs, yet `create_fnt_file`
does not fail: it produces a 16-byte container whose glyph_count field
(bytes 8..11) is 0. -/
theorem claim_C2_counterexample :
    parse_bdf [.startchar, .encoding 0, .bbx 1 1 0 0, .bitmap, .row 128, .endchar]
      = some ({}, [⟨0, 0, 1, 1, 0, 0, [128]⟩])
    ∧ create_fnt_file {} [⟨0, 0, 1, 1, 0, 0, [128]⟩] none none
      = some [0x54, 0x46, 0x4E, 0x54, 1, 9, 9, 0, 0, 0, 0, 0, 16, 0, 0, 0] := by
  constructor
  · simp [parse_bdf, parseBdfLoop, scanGlyph, readBitmapRows]
  · simp [create_fnt_file, validGlyphs, List.mergeSort, fntHeader, packU8,
      packU32le, targetWidthOf, targetHeightOf, fontAscentOf, fontDescentOf,
      packBdfIndex, bdfIndexOffsets]

/-- C2 (amended): when zero glyphs survive filtering and rendering, the
outline encoder fails fatally with the empty-result error before touching
the output file, but the bitmap encoder does not fail — it emits a 16-byte
container with glyph_count = 0. -/
theorem claim_C2_empty_result (render : Nat → Option (List Nat × Nat × Nat))
    (cmapKeys : List Nat)
    (httf : ttfRenderAll render (get_font_codepoints cmapKeys) = [])
    (props : BdfProps) (glyphs : List BdfGlyph)
    (hbdf : validGlyphs glyphs = [])
    (tw th : Int) (htw : 0 ≤ tw) (htw2 : tw < 256) (hth : 0 ≤ th) (hth2 : th < 256) :
    create_font_file render cmapKeys = .error .emptyResult
    ∧ create_fnt_file props glyphs (some tw) (some th)
      = some ([0x54, 0x46, 0x4E, 0x54, 1] ++ [tw.toNat] ++ [th.toNat]
          ++ [0, 0, 0, 0, 0, 16, 0, 0, 0]) := by
  constructor
  · simp [create_font_file, httf]
  · simp [create_fnt_file, hbdf, targetWidthOf, targetHeightOf, fntHeader,
      packU8, packU32le, packBdfIndex, bdfIndexOffsets, htw, htw2, hth, hth2]

/-- Witness for C2 at concrete empty inputs. -/
theorem claim_C2_witness :
    create_font_file (fun _ => none) [] = .error .emptyResult
    ∧ create_fnt_file {} [] (some 9) (some 9)
      = some ([0x54, 0x46, 0x4E, 0x54, 1] ++ [(9 : Int).toNat] ++ [(9 : Int).toNat]
          ++ [0, 0, 0, 0, 0, 16, 0, 0, 0]) :=
  claim_C2_empty_result (fun _ => none) []
    (by simp [ttfRenderAll, ttfKeep, get_font_codepoints]) {} []
    (by simp [validGlyphs]) 9 9 (by decide) (by decide) (by decide) (by decide)

/-! ### Layout contiguity (claim C6) -/

lemma canvasBits_length (cnv : Int → Int → Bool) (tw th : Nat) :
    (canvasBits cnv tw th).length = th * tw := by
  unfold canvasBits
  rw [List.length_flatMap]
  have h1 : (List.map (List.length ∘ fun (y : Nat) =>
      (List.range tw).map (fun (x : Nat) => cnv (y : Int) (x : Int)))
      (List.range th)) = List.replicate th tw := by
    rw [show (List.length ∘ fun (y : Nat) =>
        (List.range tw).map (fun (x : Nat) => cnv (y : Int) (x : Int)))
      = fun (_ : Nat) => tw from funext (fun y => by simp)]
    rw [List.map_const', List.length_range]
  rw [h1, List.sum_replicate, smul_eq_mul]

lemma fdiv_ceil_eq (a b : Nat) :
    (((a : Int) * (b : Int) + 7).fdiv 8).toNat = (a * b + 7) / 8 := by
  have h1 : ((a : Int) * b + 7) = ((a * b + 7 : Nat) : Int) := by push_cast; ring
  rw [h1, Int.fdiv_eq_tdiv (by positivity) (by norm_num)]
  rw [show (8 : Int) = ((8 : Nat) : Int) from rfl, ← Int.ofNat_tdiv]
  exact Int.toNat_ofNat _

lemma render_glyph_length (g : BdfGlyph) (tw th fa fd : Int)
    (htw : 0 ≤ tw) (hth : 0 ≤ th) :
    (render_glyph_to_fixed_size g tw th fa fd).length
      = ((tw * th + 7).fdiv 8).toNat := by
  unfold render_glyph_to_fixed_size
  rw [packBits_length, canvasBits_length]
  calc (th.toNat * tw.toNat + 7) / 8
      = (tw.toNat * th.toNat + 7) / 8 := by rw [Nat.mul_comm]
    _ = (((tw.toNat : Int) * (th.toNat : Int) + 7).fdiv 8).toNat :=
        (fdiv_ceil_eq _ _).symm
    _ = ((tw * th + 7).fdiv 8).toNat := by
        rw [Int.toNat_of_nonneg htw, Int.toNat_of_nonneg hth]

lemma bdfIndexOffsets_getD (count : Nat) (bpg : Int) (i : Nat) (h : i < count) :
    (bdfIndexOffsets count bpg).getD i 0
      = 16 + (count : Int) * 6 + (i : Int) * bpg := by
  unfold bdfIndexOffsets
  rw [List.getD_eq_getElem?_getD, List.getElem?_map, List.getElem?_range h]
  simp

lemma ttfIndexEntries_offset_zero (off : Nat) (g : Nat × List Nat × Nat × Nat)
    (gs : List (Nat × List Nat × Nat × Nat)) :
    ((ttfIndexEntries off (g :: gs)).map (fun e => e.2.1)).getD 0 0 = off := by
  obtain ⟨cp, bm, w, h⟩ := g
  rfl

lemma ttfIndexEntries_offset_succ :
    ∀ (gs : List (Nat × List Nat × Nat × Nat)) (off i : Nat), i + 1 < gs.length →
      ((ttfIndexEntries off gs).map (fun e => e.2.1)).getD (i + 1) 0
        = ((ttfIndexEntries off gs).map (fun e => e.2.1)).getD i 0
          + ((gs.getD i default).2.1).length := by
  intro gs
  induction gs with
  | nil => intro off i h; simp at h
  | cons g gs ih =>
      intro off i h
      obtain ⟨cp, bm, w, hh⟩ := g
      match i with
      | 0 =>
          have hgs : gs ≠ [] := by
            intro h0
            rw [h0] at h
            simp at h
          obtain ⟨g', gs', rfl⟩ : ∃ g' gs', gs = g' :: gs' := by
            cases gs with
            | nil => exact absurd rfl hgs
            | cons a l => exact ⟨a, l, rfl⟩
          obtain ⟨cp', bm', w', h'⟩ := g'
          simp [ttfIndexEntries, List.getD]
      | i + 1 =>
          rw [ttfIndexEntries]
          simp only [List.map_cons, List.getD_cons_succ, List.getD_cons_succ]
          exact ih (off + bm.length) i (by simpa using h)

/-- C6: Layout contiguity for both encoders.  Fixed format (bdf2fnt): the
first recorded blob offset is `16 + glyph_count*6` and each successive
offset advances by `bytes_per_glyph`, which equals the length of every
rendered bitmap (`ceil(target_width*target_height/8)`).  Variable format
(ttf2fnt): the first offset is `16 + glyph_count*10` and each successive
offset advances by the previous bitmap's length.  Offsets are therefore
non-decreasing with no gaps and no overlaps. -/
theorem claim_C6_layout_contiguity :
    (∀ (count : Nat) (bpg : Int), 0 < count →
      (bdfIndexOffsets count bpg).getD 0 0 = 16 + (count : Int) * 6)
    ∧ (∀ (count : Nat) (bpg : Int) (i : Nat), i + 1 < count →
      (bdfIndexOffsets count bpg).getD (i + 1) 0
        = (bdfIndexOffsets count bpg).getD i 0 + bpg)
    ∧ (∀ (g : BdfGlyph) (tw th fa fd : Int), 0 ≤ tw → 0 ≤ th →
      ((render_glyph_to_fixed_size g tw th fa fd).length : Int) = (tw * th + 7).fdiv 8)
    ∧ (∀ (g : Nat × List Nat × Nat × Nat) (gs : List (Nat × List Nat × Nat × Nat)),
      ((ttfIndexEntries (16 + (g :: gs).length * 10) (g :: gs)).map
          (fun e => e.2.1)).getD 0 0
        = 16 + (g :: gs).length * 10)
    ∧ (∀ (gs : List (Nat × List Nat × Nat × Nat)) (off i : Nat), i + 1 < gs.length →
      ((ttfIndexEntries off gs).map (fun e => e.2.1)).getD (i + 1) 0
        = ((ttfIndexEntries off gs).map (fun e => e.2.1)).getD i 0
          + ((gs.getD i default).2.1).length) := by
  refine ⟨?_, ?_, ?_, ?_, ?_⟩
  · intro count bpg hc
    rw [bdfIndexOffsets_getD count bpg 0 hc]
    simp
  · intro count bpg i h
    rw [bdfIndexOffsets_getD count bpg (i + 1) h, bdfIndexOffsets_getD count bpg i (by omega)]
    push_cast
    ring
  · intro g tw th fa fd htw hth
    rw [render_glyph_length g tw th fa fd htw hth]
    rw [Int.toNat_of_nonneg]
    exact Int.fdiv_nonneg (by positivity) (by norm_num)
  · intro g gs
    exact ttfIndexEntries_offset_zero _ g gs
  · exact ttfIndexEntries_offset_succ

/-- Witness for C6 at concrete inputs. -/
theorem claim_C6_witness :
    (bdfIndexOffsets 2 7).getD 0 0 = 16 + (2 : Int) * 6
    ∧ (bdfIndexOffsets 2 7).getD (0 + 1) 0 = (bdfIndexOffsets 2 7).getD 0 0 + 7
    ∧ ((render_glyph_to_fixed_size ⟨65, 1, 1, 1, 0, 0, [128]⟩ 3 3 1 0).length : Int)
        = ((3 : Int) * 3 + 7).fdiv 8
    ∧ ((ttfIndexEntries 36 [(65, [1, 2], 2, 1), (66, [3], 1, 1)]).map
        (fun e => e.2.1)).getD (0 + 1) 0
      = ((ttfIndexEntries 36 [(65, [1, 2], 2, 1), (66, [3], 1, 1)]).map
          (fun e => e.2.1)).getD 0 0
        + (([(65, ([1, 2] : List Nat), 2, 1), (66, [3], 1, 1)].getD 0 default).2.1).length :=
  ⟨claim_C6_layout_contiguity.1 2 7 (by decide),
    claim_C6_layout_contiguity.2.1 2 7 0 (by decide),
    claim_C6_layout_contiguity.2.2.1 ⟨65, 1, 1, 1, 0, 0, [128]⟩ 3 3 1 0 (by decide) (by decide),
    claim_C6_layout_contiguity.2.2.2.2 [(65, [1, 2], 2, 1), (66, [3], 1, 1)] 36 0 (by decide)⟩

/-! ### Index ordering (claim C7) -/

lemma validGlyphs_strict_sorted (glyphs : List BdfGlyph)
    (hnd : (glyphs.map BdfGlyph.encoding).Nodup) :
    ((validGlyphs glyphs).map BdfGlyph.encoding).Pairwise (· < ·) := by
  unfold validGlyphs
  set p : BdfGlyph → Bool := fun g => decide (0 < g.encoding ∧ g.encoding ≤ 65535) with hp
  set le : BdfGlyph → BdfGlyph → Bool := fun a b => decide (a.encoding ≤ b.encoding) with hle
  have hndfl : ((glyphs.filter p).map BdfGlyph.encoding).Nodup :=
    hnd.sublist ((List.filter_sublist glyphs).map BdfGlyph.encoding)
  have hperm : List.Perm ((glyphs.filter p).mergeSort le) (glyphs.filter p) :=
    List.mergeSort_perm (glyphs.filter p) le
  have hnds : (((glyphs.filter p).mergeSort le).map BdfGlyph.encoding).Nodup :=
    ((hperm.map BdfGlyph.encoding).nodup_iff).mpr hndfl
  have hsorted : ((glyphs.filter p).mergeSort le).Pairwise (fun a b => le a b = true) :=
    List.sorted_mergeSort
      (fun a b c hab hbc => by
        rw [hle] at hab hbc ⊢
        simp only [decide_eq_true_eq] at hab hbc ⊢
        omega)
      (fun a b => by
        rw [hle]
        simp only [Bool.or_eq_true, decide_eq_true_eq]
        omega)
      (glyphs.filter p)
  have hne : ((glyphs.filter p).mergeSort le).Pairwise
      (fun a b => a.encoding ≠ b.encoding) :=
    List.pairwise_map.mp hnds
  have hlt : ((glyphs.filter p).mergeSort le).Pairwise
      (fun a b => a.encoding < b.encoding) := by
    refine (hsorted.and hne).imp ?_
    rintro a b ⟨h1, h2⟩
    rw [hle] at h1
    simp only [decide_eq_true_eq] at h1
    omega
  exact List.pairwise_map.mpr hlt

lemma get_font_codepoints_strict_sorted (cmapKeys : List Nat) :
    (get_font_codepoints cmapKeys).Pairwise (· < ·) := by
  unfold get_font_codepoints
  set fl := (cmapKeys.dedup).filter (fun cp => decide (0x20 ≤ cp)) with hfl
  have hndfl : fl.Nodup := (cmapKeys.nodup_dedup).filter _
  have hperm : List.Perm (fl.mergeSort (fun a b => decide (a ≤ b))) fl :=
    List.mergeSort_perm fl _
  have hnds : (fl.mergeSort (fun a b => decide (a ≤ b))).Nodup :=
    hperm.nodup_iff.mpr hndfl
  have hsorted : (fl.mergeSort (fun a b => decide (a ≤ b))).Pairwise
      (fun a b => decide (a ≤ b) = true) :=
    List.sorted_mergeSort
      (fun a b c hab hbc => by
        simp only [decide_eq_true_eq] at hab hbc ⊢
        omega)
      (fun a b => by
        simp only [Bool.or_eq_true, decide_eq_true_eq]
        omega)
      fl
  refine (hsorted.and hnds).imp ?_
  rintro a b ⟨h1, h2⟩
  simp only [decide_eq_true_eq] at h1
  omega

lemma ttfRenderAll_map_fst_sublist (render : Nat → Option (List Nat × Nat × Nat)) :
    ∀ cps : List Nat, List.Sublist ((ttfRenderAll render cps).map (fun g => g.1)) cps := by
  intro cps
  induction cps with
  | nil => simp [ttfRenderAll]
  | cons cp cps ih =>
      unfold ttfRenderAll at ih ⊢
      rw [List.filterMap_cons]
      cases hr : render cp with
      | none =>
          rw [show ttfKeep render cp = none by simp [ttfKeep, hr]]
          exact ih.cons cp
      | some t =>
          obtain ⟨bm, w, h⟩ := t
          by_cases hc : bm ≠ [] ∧ 0 < w ∧ 0 < h
          · rw [show ttfKeep render cp = some (cp, bm, w, h) by simp [ttfKeep, hr, hc]]
            simpa using ih.cons₂ cp
          · rw [show ttfKeep render cp = none by
              simp [ttfKeep, hr]
              intro a b
              have hh : ¬ 0 < h := fun c => hc ⟨a, b, c⟩
              omega]
            exact ih.cons cp

/-- C7: for both encoders, the emitted index is strictly increasing by
codepoint (hence no two entries share a codepoint).  bdf2fnt: if the parsed
glyph encodings are unique, the filtered and sorted glyph list is strictly
increasing by encoding.  ttf2fnt: the codepoint list comes from a set,
sorted, so the rendered glyph list (and therefore the index, whose
codepoints `ttfIndexEntries` takes from it unchanged) is strictly
increasing unconditionally. -/
theorem claim_C7_index_strictly_sorted :
    (∀ glyphs : List BdfGlyph, (glyphs.map BdfGlyph.encoding).Nodup →
      ((validGlyphs glyphs).map BdfGlyph.encoding).Pairwise (· < ·))
    ∧ (∀ (render : Nat → Option (List Nat × Nat × Nat)) (cmapKeys : List Nat),
      ((ttfRenderAll render (get_font_codepoints cmapKeys)).map
          (fun g => g.1)).Pairwise (· < ·))
    ∧ (∀ (off : Nat) (gs : List (Nat × List Nat × Nat × Nat)),
      (ttfIndexEntries off gs).map (fun e => e.1) = gs.map (fun g => g.1)) := by
  refine ⟨validGlyphs_strict_sorted, ?_, ?_⟩
  · intro render cmapKeys
    exact (get_font_codepoints_strict_sorted cmapKeys).sublist
      (ttfRenderAll_map_fst_sublist render _)
  · intro off gs
    induction gs generalizing off with
    | nil => rfl
    | cons g gs ih =>
        obtain ⟨cp, bm, w, h⟩ := g
        rw [ttfIndexEntries]
        simp only [List.map_cons]
        rw [ih]

/-- Witness for C7 at concrete inputs. -/
theorem claim_C7_witness :
    ((validGlyphs [⟨66, 1, 1, 1, 0, 0, [128]⟩, ⟨65, 1, 1, 1, 0, 0, [64]⟩]).map
        BdfGlyph.encoding).Pairwise (· < ·)
    ∧ ((ttfRenderAll (fun cp => some ([1], 1, 1)) (get_font_codepoints [66, 65])).map
        (fun g => g.1)).Pairwise (· < ·) :=
  ⟨claim_C7_index_strictly_sorted.1 [⟨66, 1, 1, 1, 0, 0, [128]⟩, ⟨65, 1, 1, 1, 0, 0, [64]⟩]
      (by decide),
    claim_C7_index_strictly_sorted.2.1 (fun cp => some ([1], 1, 1)) [66, 65]⟩

/-! ### Variable-format dimension bytes (claim C10) -/

lemma init_le_foldl_max (f : (Nat × List Nat × Nat × Nat) → Nat) :
    ∀ (gs : List (Nat × List Nat × Nat × Nat)) (m : Nat),
      m ≤ gs.foldl (fun m g => max m (f g)) m := by
  intro gs
  induction gs with
  | nil => intro m; exact Nat.le_refl m
  | cons g gs ih =>
      intro m
      simp only [List.foldl_cons]
      exact Nat.le_trans (Nat.le_max_left m (f g)) (ih (max m (f g)))

lemma le_foldl_max (f : (Nat × List Nat × Nat × Nat) → Nat) :
    ∀ (gs : List (Nat × List Nat × Nat × Nat)) (m : Nat) (g),
      g ∈ gs → f g ≤ gs.foldl (fun m g => max m (f g)) m := by
  intro gs
  induction gs with
  | nil => intro m g hg; simp at hg
  | cons g' gs ih =>
      intro m g hg
      simp only [List.foldl_cons]
      rcases List.mem_cons.mp hg with rfl | hg'
      · exact Nat.le_trans (Nat.le_max_right m (f g)) (init_le_foldl_max f gs _)
      · exact ih _ g hg'

lemma foldl_max_le (f : (Nat × List Nat × Nat × Nat) → Nat) (B : Nat) :
    ∀ (gs : List (Nat × List Nat × Nat × Nat)) (m : Nat),
      (∀ g ∈ gs, f g ≤ B) → m ≤ B →
      gs.foldl (fun m g => max m (f g)) m ≤ B := by
  intro gs
  induction gs with
  | nil => intro m _ hm; exact hm
  | cons g gs ih =>
      intro m hall hm
      simp only [List.foldl_cons]
      refine ih _ (fun g' hg' => hall g' (List.mem_cons_of_mem _ hg')) ?_
      have := hall g (List.mem_cons_self _ _)
      omega

lemma ttfIndexEntries_mem :
    ∀ (gs : List (Nat × List Nat × Nat × Nat)) (off : Nat) (e : Nat × Nat × Nat × Nat),
      e ∈ ttfIndexEntries off gs →
      ∃ g ∈ gs, e.1 = g.1 ∧ e.2.2.1 = g.2.2.1 ∧ e.2.2.2 = g.2.2.2
        ∧ e.2.1 ≤ off + (gs.map (fun g => g.2.1.length)).sum := by
  intro gs
  induction gs with
  | nil => intro off e he; simp [ttfIndexEntries] at he
  | cons g gs ih =>
      intro off e he
      obtain ⟨cp, bm, w, h⟩ := g
      rw [ttfIndexEntries] at he
      rcases List.mem_cons.mp he with rfl | he'
      · refine ⟨(cp, bm, w, h), List.mem_cons_self _ _, rfl, rfl, rfl, ?_⟩
        simp only [List.map_cons, List.sum_cons]
        omega
      · obtain ⟨g', hg', h1, h2, h3, h4⟩ := ih (off + bm.length) e he'
        refine ⟨g', List.mem_cons_of_mem _ hg', h1, h2, h3, ?_⟩
        simp only [List.map_cons, List.sum_cons]
        omega

lemma packTtfEntry_isSome (e : Nat × Nat × Nat × Nat)
    (hcp : e.1 < 4294967296) (hoff : e.2.1 < 4294967296)
    (hw : e.2.2.1 ≤ 255) (hh : e.2.2.2 ≤ 255) :
    (packTtfEntry e).isSome := by
  unfold packTtfEntry packU32le packU8
  rw [if_pos (by constructor <;> omega), if_pos (by constructor <;> omega),
    if_pos (by constructor <;> omega), if_pos (by constructor <;> omega)]
  rfl

lemma packTtfIndex_isSome :
    ∀ es : List (Nat × Nat × Nat × Nat),
      (∀ e ∈ es, (packTtfEntry e).isSome) → (packTtfIndex es).isSome := by
  intro es
  induction es with
  | nil => intro _; rfl
  | cons e es ih =>
      intro hall
      obtain ⟨eb, heb⟩ :=
        Option.isSome_iff_exists.mp (hall e (List.mem_cons_self _ _))
      obtain ⟨rb, hrb⟩ :=
        Option.isSome_iff_exists.mp (ih (fun e' he' => hall e' (List.mem_cons_of_mem _ he')))
      simp [packTtfIndex, heb, hrb]

lemma ttfHeader_isSome (maxW maxH count : Nat)
    (hw : maxW ≤ 255) (hh : maxH ≤ 255) (hc : count < 4294967296) :
    (ttfHeader maxW maxH count).isSome := by
  unfold ttfHeader packU8 packU32le
  rw [if_pos (by constructor <;> omega), if_pos (by constructor <;> omega),
    if_pos (by constructor <;> omega), if_pos (by constructor <;> omega)]
  rfl

lemma ttfHeader_none_of_dim (maxW maxH count : Nat)
    (hd : 255 < maxW ∨ 255 < maxH) :
    ttfHeader maxW maxH count = none := by
  rcases hd with hd | hd
  · have h1 : packU8 (maxW : Int) = none := by
      unfold packU8
      rw [if_neg (by omega)]
    simp [ttfHeader, h1]
  · cases hwb : packU8 (maxW : Int) with
    | none => simp [ttfHeader, hwb]
    | some wb =>
        have h1 : packU8 (maxH : Int) = none := by
          unfold packU8
          rw [if_neg (by omega)]
        simp [ttfHeader, hwb, h1]

/-- C10: In the variable-format encoder, index-entry and header dimensions
are packed as single unsigned bytes via `struct.pack('<IIBB', ...)` and
`struct.pack('<4sBBBBII', ...)`.  If any rendered glyph dimension exceeds
255 the encoder raises (`structError`) instead of emitting a truncated
dimension; if every rendered width and height fits in a byte (and the
counts and offsets fit their 32-bit fields) the container write succeeds. -/
theorem claim_C10_variable_dims_byte (render : Nat → Option (List Nat × Nat × Nat))
    (cmapKeys : List Nat) :
    ((∃ g ∈ ttfRenderAll render (get_font_codepoints cmapKeys),
        255 < g.2.2.1 ∨ 255 < g.2.2.2) →
      create_font_file render cmapKeys = .error .structError)
    ∧ (ttfRenderAll render (get_font_codepoints cmapKeys) ≠ [] →
      (∀ g ∈ ttfRenderAll render (get_font_codepoints cmapKeys),
        g.2.2.1 ≤ 255 ∧ g.2.2.2 ≤ 255 ∧ g.1 < 4294967296) →
      16 + (ttfRenderAll render (get_font_codepoints cmapKeys)).length * 10
        + ((ttfRenderAll render (get_font_codepoints cmapKeys)).map
            (fun g => g.2.1.length)).sum < 4294967296 →
      ∃ bs, create_font_file render cmapKeys = .ok bs) := by
  constructor
  · rintro ⟨g, hmem, hdim⟩
    have hne : ttfRenderAll render (get_font_codepoints cmapKeys) ≠ [] :=
      List.ne_nil_of_mem hmem
    have hmax : 255 < maxWidthOf (ttfRenderAll render (get_font_codepoints cmapKeys))
        ∨ 255 < maxHeightOf (ttfRenderAll render (get_font_codepoints cmapKeys)) := by
      rcases hdim with hd | hd
      · exact .inl (lt_of_lt_of_le hd
          (le_foldl_max (fun g => g.2.2.1) _ 0 g hmem))
      · exact .inr (lt_of_lt_of_le hd
          (le_foldl_max (fun g => g.2.2.2) _ 0 g hmem))
    have hheader := ttfHeader_none_of_dim
      (maxWidthOf (ttfRenderAll render (get_font_codepoints cmapKeys)))
      (maxHeightOf (ttfRenderAll render (get_font_codepoints cmapKeys)))
      (ttfRenderAll render (get_font_codepoints cmapKeys)).length hmax
    simp only [create_font_file]
    rw [if_neg hne, hheader]
  · intro hne hdims hbound
    have hw : maxWidthOf (ttfRenderAll render (get_font_codepoints cmapKeys)) ≤ 255 :=
      foldl_max_le (fun g => g.2.2.1) 255 _ 0 (fun g hg => (hdims g hg).1) (by omega)
    have hh : maxHeightOf (ttfRenderAll render (get_font_codepoints cmapKeys)) ≤ 255 :=
      foldl_max_le (fun g => g.2.2.2) 255 _ 0 (fun g hg => (hdims g hg).2.1) (by omega)
    have hcount : (ttfRenderAll render (get_font_codepoints cmapKeys)).length
        < 4294967296 := by omega
    obtain ⟨header, hhdr⟩ := Option.isSome_iff_exists.mp
      (ttfHeader_isSome _ _ _ hw hh hcount)
    have hidx : (packTtfIndex (ttfIndexEntries
        (16 + (ttfRenderAll render (get_font_codepoints cmapKeys)).length * 10)
        (ttfRenderAll render (get_font_codepoints cmapKeys)))).isSome := by
      apply packTtfIndex_isSome
      intro e he
      obtain ⟨g, hg, h1, h2, h3, h4⟩ := ttfIndexEntries_mem _ _ e he
      apply packTtfEntry_isSome
      · rw [h1]; exact (hdims g hg).2.2
      · omega
      · rw [h2]; exact (hdims g hg).1
      · rw [h3]; exact (hdims g hg).2.1
    obtain ⟨index, hidxeq⟩ := Option.isSome_iff_exists.mp hidx
    refine ⟨header ++ index ++ (ttfRenderAll render
      (get_font_codepoints cmapKeys)).flatMap (fun g => g.2.1), ?_⟩
    simp only [create_font_file]
    rw [if_neg hne, hhdr, hidxeq]

/-- Witness for C10: a one-glyph font with a 1×1 glyph encodes successfully. -/
theorem claim_C10_witness :
    ∃ bs, create_font_file (fun _ => some ([128], 1, 1)) [65] = .ok bs :=
  (claim_C10_variable_dims_byte (fun _ => some ([128], 1, 1)) [65]).2
    (by simp [ttfRenderAll, ttfKeep, get_font_codepoints, List.mergeSort])
    (by simp [ttfRenderAll, ttfKeep, get_font_codepoints, List.mergeSort])
    (by simp [ttfRenderAll, ttfKeep, get_font_codepoints, List.mergeSort])

end TianshanFnt
